import Mathlib

/-!
# Verification development for the `tg` broker

Shallow embedding of the callback registry (`broker.go`), the client read loop,
connection list and broadcast (`cmd/tg-broker/clients.go`), the command
dispatcher (`cmd/tg-broker/action.go`) and the file-fetch adapter
(`cmd/tg-broker/telegram.go`), with the properties stated about them.

Conventions of the embedding:
* a Go `int` that is stored or passed around is an `Int`; loop counters that
  start from a value already known to be non-negative are `Nat`;
* no integer of the code can overflow: each is bounded by the length of a slice;
* a run-time panic (index out of range, slice bounds, nil dereference) is the
  `error` side of `Except Panic`, or the `panicked` field of a run;
* a nilable Go value (`func`, pointer) is an `Option`, `none` being `nil`.
-/

namespace Tg

/-- Run-time panics the embedded code can raise. -/
inductive Panic where
  | indexOutOfRange
  | sliceBounds
  | nilDereference
  deriving DecidableEq, Repr

deriving instance DecidableEq for Except

/-! ## Callback registry (`broker.go`) -/

/-- The registry part of `type Broker struct`: the slot array `Callbacks`
(a `nil` callback is `none`) and the free cursor `cbFree`. -/
structure Broker (H : Type) where
  Callbacks : List (Option H)
  cbFree : Int
  deriving DecidableEq, Repr

/-- The registry as `ConnectToBroker` creates it: `make([]BrokerCallback, 0)`, `cbFree = 0`. -/
def Broker.empty {H : Type} : Broker H := { Callbacks := [], cbFree := 0 }

/-- Go `xs[i]` as an expression: panics unless `0 ≤ i < len(xs)`. -/
def index {α : Type} (xs : List α) (i : Int) : Except Panic α :=
  if 0 ≤ i then
    match xs[i.toNat]? with
    | some x => .ok x
    | none => .error .indexOutOfRange
  else .error .indexOutOfRange

/-- Go `xs[i] = v`: panics unless `0 ≤ i < len(xs)`. -/
def store {α : Type} (xs : List α) (i : Int) (v : α) : Except Panic (List α) :=
  if 0 ≤ i ∧ i < xs.length then .ok (xs.set i.toNat v) else .error .indexOutOfRange

/-- The loop `for ; next < cblen; next++ { if b.Callbacks[next] == nil { break } }`
of `RegisterCallback`; the result is the value of `next` after the loop. The first
argument bounds the number of iterations; `cblen - next` is always enough. -/
def scanFree {H : Type} (cbs : List (Option H)) (cblen : Nat) : Nat → Nat → Except Panic Nat
  | 0, next => .ok next
  | fuel + 1, next =>
    if next < cblen then
      match index cbs (next : Int) with
      | .error p => .error p
      | .ok none => .ok next
      | .ok (some _) => scanFree cbs cblen fuel (next + 1)
    else .ok next

/-- Embeds `func (b *Broker) RegisterCallback(fn BrokerCallback) int`: the new registry
and the returned id. -/
def RegisterCallback {H : Type} (b : Broker H) (fn : Option H) : Except Panic (Broker H × Int) :=
  let cblen := b.Callbacks.length
  if b.cbFree = (cblen : Int) then
    .ok ({ Callbacks := b.Callbacks ++ [fn], cbFree := b.cbFree + 1 }, (cblen : Int))
  else
    let id := b.cbFree
    match store b.Callbacks id fn with
    | .error p => .error p
    | .ok cbs =>
      match scanFree cbs cblen (cblen - (id.toNat + 1)) (id.toNat + 1) with
      | .error p => .error p
      | .ok next => .ok ({ Callbacks := cbs, cbFree := (next : Int) }, id)

/-- The loop `for i = len(b.Callbacks); i > 0; i-- { if b.Callbacks[i-1] != nil { break }; cut = true }`
of `resizeCbArray`, started at `i` with the given `cut`; the result is `(i, cut)` after the loop. -/
def resizeLoop {H : Type} (cbs : List (Option H)) : Nat → Bool → Except Panic (Nat × Bool)
  | 0, cut => .ok (0, cut)
  | i + 1, cut =>
    match index cbs (i : Int) with
    | .error p => .error p
    | .ok (some _) => .ok (i + 1, cut)
    | .ok none => resizeLoop cbs i true

/-- Embeds `func (b *Broker) resizeCbArray()`. -/
def resizeCbArray {H : Type} (b : Broker H) : Except Panic (Broker H) :=
  match resizeLoop b.Callbacks b.Callbacks.length false with
  | .error p => .error p
  | .ok (i, cut) =>
    if cut then
      .ok { Callbacks := b.Callbacks.take i,
            cbFree := if b.cbFree > (i : Int) then (i : Int) else b.cbFree }
    else .ok b

/-- Embeds `func (b *Broker) RemoveCallback(id int)`. -/
def RemoveCallback {H : Type} (b : Broker H) (id : Int) : Except Panic (Broker H) :=
  match store b.Callbacks id none with
  | .error p => .error p
  | .ok cbs =>
    resizeCbArray { Callbacks := cbs, cbFree := if id < b.cbFree then id else b.cbFree }

/-- Embeds `func (b *Broker) SpliceCallback(id int) BrokerCallback`: the returned callback
is read first, the deferred `RemoveCallback(id)` runs before the function returns. -/
def SpliceCallback {H : Type} (b : Broker H) (id : Int) : Except Panic (Option H × Broker H) :=
  match index b.Callbacks id with
  | .error p => .error p
  | .ok fn =>
    match RemoveCallback b id with
    | .error p => .error p
    | .ok b' => .ok (fn, b')

/-- Whether a call returned normally. -/
def returns {α : Type} : Except Panic α → Bool
  | .ok _ => true
  | .error _ => false

/-! ### Call sequences and the ledger of live registrations -/

/-- One call made on the registry by its user. -/
inductive Call (H : Type) where
  | register (fn : H)
  | remove (id : Int)
  | splice (id : Int)
  deriving DecidableEq, Repr

/-- The live registrations, newest first: each id a `RegisterCallback` call returned
and that has not been released since, with the handler passed to that call. -/
abbrev Ledger (H : Type) := List (Int × H)

/-- The handler registered under `id`, `none` when `id` is not live. -/
def Ledger.handler {H : Type} : Ledger H → Int → Option H
  | [], _ => none
  | (k, h) :: rest, id => if k = id then some h else Ledger.handler rest id

/-- The ledger after `id` is released. -/
def Ledger.release {H : Type} (m : Ledger H) (id : Int) : Ledger H :=
  m.filter (fun e => decide (e.1 ≠ id))

/-- How a call sequence ends. -/
inductive Outcome (σ : Type) where
  | done (s : σ)
  | misuse
  | crashed (p : Panic)
  deriving DecidableEq, Repr

/-- Runs a call sequence on a registry, keeping the ledger alongside. A release of
an id that is not live is `misuse` (the sequences the properties speak of never do
it); a panic of the code is `crashed`. -/
def replay {H : Type} : List (Call H) → Broker H × Ledger H → Outcome (Broker H × Ledger H)
  | [], s => .done s
  | .register fn :: rest, (b, m) =>
    match RegisterCallback b (some fn) with
    | .error p => .crashed p
    | .ok (b', id) => replay rest (b', (id, fn) :: m)
  | .remove id :: rest, (b, m) =>
    match m.handler id with
    | none => .misuse
    | some _ =>
      match RemoveCallback b id with
      | .error p => .crashed p
      | .ok b' => replay rest (b', m.release id)
  | .splice id :: rest, (b, m) =>
    match m.handler id with
    | none => .misuse
    | some _ =>
      match SpliceCallback b id with
      | .error p => .crashed p
      | .ok (_, b') => replay rest (b', m.release id)

/-- A registry state together with its ledger, reached from the empty registry by
some sequence of registrations (of non-nil handlers) and releases of live ids. -/
def Reachable {H : Type} (b : Broker H) (m : Ledger H) : Prop :=
  ∃ calls : List (Call H), replay calls (Broker.empty, []) = .done (b, m)

/-- The handler held by slot `id` of the array, `none` for a free slot or an index
outside the array. -/
def slot {H : Type} (b : Broker H) (id : Int) : Option H :=
  if 0 ≤ id then (b.Callbacks[id.toNat]?).join else none

/-- A slot holding a handler. -/
def LiveAt {H : Type} (cbs : List (Option H)) (n : Nat) : Prop := ∃ h, cbs[n]? = some (some h)

/-- The invariant of the registry: the cursor lies inside the array or right at
its end, every slot below it is live, the slot it points at (if any) is free, the
last slot of a non-empty array is live, and the live slots are exactly the ledger. -/
structure Inv {H : Type} (b : Broker H) (m : Ledger H) : Prop where
  free_nonneg : 0 ≤ b.cbFree
  free_le : b.cbFree ≤ (b.Callbacks.length : Int)
  below_live : ∀ n : Nat, (n : Int) < b.cbFree → LiveAt b.Callbacks n
  at_free : ∀ n : Nat, (n : Int) = b.cbFree → n < b.Callbacks.length → b.Callbacks[n]? = some none
  last_live : ∀ n : Nat, b.Callbacks.length = n + 1 → LiveAt b.Callbacks n
  ledger : ∀ id : Int, m.handler id = slot b id

/-! ## Protocol types (`command.go`, `api.go`) -/

/-- Embeds `BMessage BrokerUpdateType = "message"`. -/
def BMessage : String := "message"

/-- Embeds `BFile BrokerUpdateType = "file"`. -/
def BFile : String := "file"

/-- Embeds `BError BrokerUpdateType = "error"`. -/
def BError : String := "error"

/-- Embeds `type APIUpdate struct`; the message and inline-query objects are kept as
their JSON text. -/
structure APIUpdate where
  UpdateID : Int
  Message : Option String
  Inline : Option String
  deriving DecidableEq, Repr

/-- Embeds `type BrokerUpdate struct`. -/
structure BrokerUpdate where
  Type_ : String
  Callback : Option Int
  Error : Option String
  Data : Option APIUpdate
  Bytes : Option String
  deriving DecidableEq, Repr

/-- Embeds `CmdSendTextMessage ClientCommandType = "sendText"`. -/
def CmdSendTextMessage : String := "sendText"

/-- Embeds `CmdSendPhoto ClientCommandType = "sendPhoto"`. -/
def CmdSendPhoto : String := "sendPhoto"

/-- Embeds `CmdForwardMessage ClientCommandType = "forwardMessage"`. -/
def CmdForwardMessage : String := "forwardMessage"

/-- Embeds `CmdGetFile ClientCommandType = "getFile"`. -/
def CmdGetFile : String := "getFile"

/-- Embeds `CmdSendChatAction ClientCommandType = "sendChatAction"`. -/
def CmdSendChatAction : String := "sendChatAction"

/-- Embeds `CmdAnswerInlineQuery ClientCommandType = "answerInlineQuery"`. -/
def CmdAnswerInlineQuery : String := "answerInlineQuery"

/-- Embeds `type ClientTextMessageData struct`. -/
structure ClientTextMessageData where
  ChatID : Int
  Text : String
  ReplyID : Option Int
  deriving DecidableEq, Repr

/-- Embeds `type ClientPhotoData struct`. -/
structure ClientPhotoData where
  ChatID : Int
  Bytes : String
  Filename : String
  Caption : String
  ReplyID : Option Int
  deriving DecidableEq, Repr

/-- Embeds `type ClientForwardMessageData struct`. -/
structure ClientForwardMessageData where
  ChatID : Int
  FromChatID : Int
  MessageID : Int
  deriving DecidableEq, Repr

/-- Embeds `type ClientChatActionData struct`; `ChatAction` is a Go string type. -/
structure ClientChatActionData where
  ChatID : Int
  Action : String
  deriving DecidableEq, Repr

/-- Embeds `type FileRequestData struct`. -/
structure FileRequestData where
  FileID : String
  deriving DecidableEq, Repr

/-- Embeds `type InlineQueryResponse struct`; each element of `Results` is kept as its JSON text. -/
structure InlineQueryResponse where
  QueryID : String
  Results : List String
  CacheTime : Option Int
  IsPersonal : Bool
  NextOffset : String
  PMText : String
  PMParam : String
  deriving DecidableEq, Repr

/-- Embeds `type ClientCommand struct`; a nil pointer field is `none`. -/
structure ClientCommand where
  Type_ : String
  TextMessageData : Option ClientTextMessageData
  PhotoData : Option ClientPhotoData
  ForwardMessageData : Option ClientForwardMessageData
  ChatActionData : Option ClientChatActionData
  InlineQueryResults : Option InlineQueryResponse
  FileRequestData : Option FileRequestData
  Callback : Option Int
  deriving DecidableEq, Repr

/-- Embeds `type APIFile struct`. -/
structure APIFile where
  FileID : String
  Size : Option Int
  Path : Option String
  deriving DecidableEq, Repr

/-! ## Upstream adapter (`cmd/tg-broker/telegram.go`) and dispatch (`cmd/tg-broker/action.go`) -/

/-- What a run of the broker code does that can be seen from outside: the adapter
operations invoked on `api`, and the update lines written to client connections
(a line is identified with the `BrokerUpdate` that `json.Marshal` encodes).
`AnswerInlineQuery` is the operation `Telegram.AnswerInlineQuery` of `telegram.go`. -/
inductive Event (Conn : Type) where
  | SendTextMessage (data : ClientTextMessageData)
  | GetFile (data : FileRequestData) (client : Conn) (callback : Int)
  | SendPhoto (data : ClientPhotoData)
  | ForwardMessage (data : ClientForwardMessageData)
  | SendChatAction (data : ClientChatActionData)
  | AnswerInlineQuery (data : InlineQueryResponse)
  | write (client : Conn) (line : BrokerUpdate)
  deriving DecidableEq, Repr

/-- A run of a piece of code: the events it produced, in order, and the panic that
aborted it (`none` when it returned normally). -/
structure Run (E : Type) where
  events : List E
  panicked : Option Panic
  deriving DecidableEq, Repr

/-- The outcome of each upstream step of one `Telegram.GetFile` call. -/
structure Upstream where
  /-- Whether `http.PostForm(t.apiURL("getFile"), postdata)` returned no error. -/
  postOk : Bool
  /-- Result of `json.NewDecoder(resp.Body).Decode(&filespecs)`: `none` for a decode error,
  otherwise the decoded `filespecs.Result`. -/
  decoded : Option (Option APIFile)
  /-- Whether `http.Get(path)` returned no error. -/
  getOk : Bool
  /-- Result of `ioutil.ReadAll(fileresp.Body)`: `none` for a read error, otherwise the bytes. -/
  body : Option (List UInt8)
  /-- Whether `json.Marshal` of the file update returned no error. -/
  marshalOk : Bool
  deriving DecidableEq, Repr

/-- The closure `fail` of `Telegram.GetFile`: writes one error update to `client`. -/
def GetFile.fail {Conn : Type} (client : Conn) (callback : Int) (msg : String) : Run (Event Conn) :=
  { events := [.write client
      { Type_ := BError, Error := some msg, Callback := some callback, Data := none, Bytes := none }],
    panicked := none }

/-- Embeds `func (t Telegram) GetFile(data tg.FileRequestData, client net.Conn, callback int)`.
`encode` is `base64.StdEncoding.EncodeToString`; `up` gives the outcome of each
upstream step. Dereferencing a nil `result.Path` or `result.Size` panics. -/
def Telegram.GetFile {Conn : Type} (encode : List UInt8 → String) (up : Upstream)
    (_data : FileRequestData) (client : Conn) (callback : Int) : Run (Event Conn) :=
  if !up.postOk then GetFile.fail client callback "Server didn't like my request"
  else
    match up.decoded with
    | none => GetFile.fail client callback "Server sent garbage (or error)"
    | some none =>
      GetFile.fail client callback "Server didn't send a file info, does the file exist?"
    | some (some result) =>
      match result.Path with
      | none => { events := [], panicked := some .nilDereference }
      | some _ =>
        if !up.getOk then
          GetFile.fail client callback "Could not retrieve file from Telegram's servers"
        else
          match up.body with
          | none => GetFile.fail client callback "Could not read file data"
          | some rawdata =>
            match result.Size with
            | none => { events := [], panicked := some .nilDereference }
            | some _ =>
              let b64data := encode rawdata
              if !up.marshalOk then
                GetFile.fail client callback "Could not serialize reply JSON"
              else
                { events := [.write client
                    { Type_ := BFile, Bytes := some b64data, Callback := some callback,
                      Error := none, Data := none }],
                  panicked := none }

/-- Embeds `func executeClientCommand(action tg.ClientCommand, client net.Conn)`: the
`switch action.Type`; each case dereferences its payload pointer (a nil pointer
panics) and calls the adapter operation. Of the adapter operations only `GetFile`
writes to a client. -/
def executeClientCommand {Conn : Type} (encode : List UInt8 → String) (up : Upstream)
    (action : ClientCommand) (client : Conn) : Run (Event Conn) :=
  if action.Type_ = CmdSendTextMessage then
    match action.TextMessageData with
    | none => { events := [], panicked := some .nilDereference }
    | some data => { events := [.SendTextMessage data], panicked := none }
  else if action.Type_ = CmdGetFile then
    match action.FileRequestData with
    | none => { events := [], panicked := some .nilDereference }
    | some data =>
      match action.Callback with
      | none => { events := [], panicked := some .nilDereference }
      | some callback =>
        let r := Telegram.GetFile encode up data client callback
        { events := .GetFile data client callback :: r.events, panicked := r.panicked }
  else if action.Type_ = CmdSendPhoto then
    match action.PhotoData with
    | none => { events := [], panicked := some .nilDereference }
    | some data => { events := [.SendPhoto data], panicked := none }
  else if action.Type_ = CmdForwardMessage then
    match action.ForwardMessageData with
    | none => { events := [], panicked := some .nilDereference }
    | some data => { events := [.ForwardMessage data], panicked := none }
  else if action.Type_ = CmdSendChatAction then
    match action.ChatActionData with
    | none => { events := [], panicked := some .nilDereference }
    | some data => { events := [.SendChatAction data], panicked := none }
  else { events := [], panicked := none }

/-! ## Client connections (`cmd/tg-broker/clients.go`) -/

/-- What one run of `handleClient` did: the commands it passed to
`executeClientCommand`, in order, the events of those calls, and the panic
that ended it (`none` when the loop was left on a read error). -/
structure ClientRun (E : Type) where
  dispatched : List ClientCommand
  events : List E
  panicked : Option Panic
  deriving DecidableEq, Repr

/-- The `for` loop of `handleClient`, with `buf` the current buffer. The list holds
the successive non-error results `(bytes, isPrefix)` of `b.ReadLine()`; after the
last one `ReadLine` returns an error and the loop breaks. `unmarshal` is
`json.Unmarshal(buf, &cmd)` into a fresh `ClientCommand` (`none` for an error),
`exec` is `executeClientCommand`. -/
def handleClientLoop {Conn E : Type} (unmarshal : List UInt8 → Option ClientCommand)
    (exec : ClientCommand → Conn → Run E) (c : Conn) :
    List (List UInt8 × Bool) → List UInt8 → ClientRun E
  | [], _ => { dispatched := [], events := [], panicked := none }
  | (bytes, isPrefix) :: rest, buf =>
    let buf := buf ++ bytes
    if isPrefix then handleClientLoop unmarshal exec c rest buf
    else
      match unmarshal buf with
      | none => handleClientLoop unmarshal exec c rest buf
      | some cmd =>
        let r := exec cmd c
        match r.panicked with
        | some p => { dispatched := [cmd], events := r.events, panicked := some p }
        | none =>
          let k := handleClientLoop unmarshal exec c rest []
          { dispatched := cmd :: k.dispatched, events := r.events ++ k.events,
            panicked := k.panicked }

/-- Embeds `func handleClient(c net.Conn)`: the read loop started with
`buf := make([]byte, 0)`. -/
def handleClient {Conn E : Type} (unmarshal : List UInt8 → Option ClientCommand)
    (exec : ClientCommand → Conn → Run E) (c : Conn) (reads : List (List UInt8 × Bool)) :
    ClientRun E :=
  handleClientLoop unmarshal exec c reads []

/-- The completed lines of a sequence of `ReadLine` results, as the
protocol defines them: each is the concatenation of the consecutive fragments up to and
including the first one with `isPrefix = false`; `acc` holds the fragments of the
line in progress. -/
def completedLines : List (List UInt8 × Bool) → List UInt8 → List (List UInt8)
  | [], _ => []
  | (bytes, true) :: rest, acc => completedLines rest (acc ++ bytes)
  | (bytes, false) :: rest, acc => (acc ++ bytes) :: completedLines rest []

/-- The bytes of an ASCII string. -/
def ascii (s : String) : List UInt8 := s.toList.map (fun ch => ch.toNat.toUInt8)

/-- The command of the protocol's end-to-end example. -/
def typingCommand : ClientCommand :=
  { Type_ := CmdSendChatAction, TextMessageData := none, PhotoData := none,
    ForwardMessageData := none, ChatActionData := some { ChatID := 42, Action := "typing" },
    InlineQueryResults := none, FileRequestData := none, Callback := none }

/-- The line that encodes `typingCommand`. -/
def typingLine : List UInt8 :=
  ascii "\x7b\"Type\":\"sendChatAction\",\"ChatActionData\":\x7b\"ChatID\":42,\"Action\":\"typing\"\x7d\x7d"

/-- A decoder that agrees with `json.Unmarshal` on the inputs of the examples
below: it accepts the one line `typingLine` and rejects every other input. -/
def sampleUnmarshal (buf : List UInt8) : Option ClientCommand :=
  if buf = typingLine then some typingCommand else none

/-- The global `var clients []net.Conn` as Go holds it: the cells of the backing
array and the length of the slice. `append(clients[:i], clients[i+1:]...)` moves
cells inside the backing array and shortens the slice, the cells from the new
length on keep what they held; a `range` loop started before still reads them. -/
structure Clients (Conn : Type) where
  arr : List Conn
  len : Nat
  deriving DecidableEq, Repr

/-- The slice whose elements are the given list, its backing array full. -/
def Clients.ofList {Conn : Type} (l : List Conn) : Clients Conn := { arr := l, len := l.length }

/-- The elements of the slice: the first `len` cells of the backing array. -/
def Clients.toList {Conn : Type} (cl : Clients Conn) : List Conn := cl.arr.take cl.len

/-- Embeds `clients = append(clients[:i], clients[i+1:]...)`: the slice expression
`clients[i+1:]` panics unless `i + 1 ≤ len(clients)` (and `clients[:i]` unless `i`
is within the capacity); the cells `i+1 .. len-1` are copied down by one. -/
def Clients.cut {Conn : Type} (cl : Clients Conn) (i : Nat) : Except Panic (Clients Conn) :=
  if i + 1 ≤ cl.len ∧ i ≤ cl.arr.length then
    .ok { arr := cl.arr.take i ++ (cl.arr.drop (i + 1)).take (cl.len - (i + 1)) ++ cl.arr.drop (cl.len - 1),
          len := cl.len - 1 }
  else .error .sliceBounds

/-- The loop `for i, con := range clients { if c == con { ... } }` of `removeCon`,
with `todo` iterations left, at index `i`. The range expression is evaluated once:
the number of iterations is the length of the slice when the loop starts, and each
`con` is read from the backing array when its iteration begins. -/
def removeConLoop {Conn : Type} [DecidableEq Conn] (c : Conn) :
    Nat → Nat → Clients Conn → Except Panic (Clients Conn)
  | 0, _, cl => .ok cl
  | todo + 1, i, cl =>
    match cl.arr[i]? with
    | none => .error .indexOutOfRange
    | some con =>
      if c = con then
        match cl.cut i with
        | .error p => .error p
        | .ok cl' => removeConLoop c todo (i + 1) cl'
      else removeConLoop c todo (i + 1) cl

/-- Embeds `func removeCon(c net.Conn)`. -/
def removeCon {Conn : Type} [DecidableEq Conn] (c : Conn) (cl : Clients Conn) :
    Except Panic (Clients Conn) :=
  removeConLoop c cl.len 0 cl

/-- What a broadcast did: the connections `fmt.Fprintln(c, message)` was called on,
in order, and the connection list afterwards (or the panic that aborted it). -/
structure BroadcastRun (Conn : Type) where
  written : List Conn
  result : Except Panic (Clients Conn)
  deriving DecidableEq, Repr

/-- The loop `for _, c := range clients { ... }` of `broadcast`, with `todo`
iterations left, at index `i`; `fails c` tells whether a write to `c` returns an
error. As in `removeConLoop` the range expression is evaluated once. -/
def broadcastLoop {Conn : Type} [DecidableEq Conn] (fails : Conn → Bool) :
    Nat → Nat → Clients Conn → BroadcastRun Conn
  | 0, _, cl => { written := [], result := .ok cl }
  | todo + 1, i, cl =>
    match cl.arr[i]? with
    | none => { written := [], result := .error .indexOutOfRange }
    | some c =>
      if fails c then
        match removeCon c cl with
        | .error p => { written := [c], result := .error p }
        | .ok cl' =>
          let k := broadcastLoop fails todo (i + 1) cl'
          { written := c :: k.written, result := k.result }
      else
        let k := broadcastLoop fails todo (i + 1) cl
        { written := c :: k.written, result := k.result }

/-- Embeds `func broadcast(message string)`; the message is the same for every write and
is left out. -/
def broadcast {Conn : Type} [DecidableEq Conn] (fails : Conn → Bool) (cl : Clients Conn) :
    BroadcastRun Conn :=
  broadcastLoop fails cl.len 0 cl

/-- The payload field required by the tag of a command that `executeClientCommand`
has a case for is absent; for `getFile` the callback identifier counts as required. -/
def requiredPayloadMissing (a : ClientCommand) : Bool :=
  (a.Type_ = CmdSendTextMessage && a.TextMessageData.isNone) ||
  (a.Type_ = CmdGetFile && (a.FileRequestData.isNone || a.Callback.isNone)) ||
  (a.Type_ = CmdSendPhoto && a.PhotoData.isNone) ||
  (a.Type_ = CmdForwardMessage && a.ForwardMessageData.isNone) ||
  (a.Type_ = CmdSendChatAction && a.ChatActionData.isNone)

/-- A command with the given tag and no payload at all. -/
def bareCommand (tag : String) : ClientCommand :=
  { Type_ := tag, TextMessageData := none, PhotoData := none, ForwardMessageData := none,
    ChatActionData := none, InlineQueryResults := none, FileRequestData := none, Callback := none }

/-- An upstream on which every step succeeds, serving the given file description
and bytes. -/
def Upstream.serving (result : APIFile) (bytes : List UInt8) : Upstream :=
  { postOk := true, decoded := some (some result), getOk := true, body := some bytes,
    marshalOk := true }

/-! ## Webhook (`cmd/tg-broker/webhook.go`) -/

/-- Embeds `func webhook(rw http.ResponseWriter, req *http.Request)`: `decoded` is
the result of `json.NewDecoder(req.Body).Decode(&update)` (`none` for an error),
`marshalOk` tells whether `json.Marshal` returned no error. The result is the
update whose encoding is passed to `broadcast`, `none` when the handler returns
without a broadcast. The composite literal `tg.BrokerUpdate{Data: update, Callback: nil}`
sets `Data` and `Callback` only; every other field has its zero value. -/
def webhook (decoded : Option APIUpdate) (marshalOk : Bool) : Option BrokerUpdate :=
  match decoded with
  | none => none
  | some update =>
    if !marshalOk then none
    else some { Type_ := "", Callback := none, Error := none, Data := some update, Bytes := none }

/-- A command with the given tag that carries every payload field and a callback
identifier. -/
def fullCommand (tag : String) : ClientCommand :=
  { Type_ := tag,
    TextMessageData := some { ChatID := 42, Text := "hi", ReplyID := none },
    PhotoData := some { ChatID := 42, Bytes := "", Filename := "p.png", Caption := "", ReplyID := none },
    ForwardMessageData := some { ChatID := 42, FromChatID := 7, MessageID := 1 },
    ChatActionData := some { ChatID := 42, Action := "typing" },
    InlineQueryResults := some ⟨"q", [], none, false, "", "", ""⟩,
    FileRequestData := some { FileID := "f" },
    Callback := some 7 }

/-- The events of executing the given commands on connection `c`, one command
after the other. -/
def eventsOfAll {Conn E : Type} (exec : ClientCommand → Conn → Run E) (c : Conn) :
    List ClientCommand → List E
  | [] => []
  | cmd :: rest => (exec cmd c).events ++ eventsOfAll exec c rest

/-- A `getFile` command with its file request and the callback identifier 7. -/
def getFileCommand : ClientCommand :=
  { Type_ := CmdGetFile, TextMessageData := none, PhotoData := none, ForwardMessageData := none,
    ChatActionData := none, InlineQueryResults := none, FileRequestData := some { FileID := "f" },
    Callback := some 7 }

/-- The line that encodes `getFileCommand`. -/
def getFileLine : List UInt8 :=
  ascii "\x7b\"Type\":\"getFile\",\"FileRequestData\":\x7b\"FileID\":\"f\"\x7d,\"Callback\":7\x7d"

/-- A decoder that agrees with `json.Unmarshal` on the inputs of the examples
below: it accepts the two lines `getFileLine` and `typingLine` and rejects every
other input. -/
def sampleUnmarshalBoth (buf : List UInt8) : Option ClientCommand :=
  if buf = getFileLine then some getFileCommand else sampleUnmarshal buf

/-! ## Properties of the callback registry -/

theorem index_natCast {α : Type} (xs : List α) (n : Nat) :
    index xs (n : Int) = match xs[n]? with
      | some x => .ok x
      | none => .error .indexOutOfRange := by
  simp [index]

theorem store_natCast {α : Type} (xs : List α) (n : Nat) (v : α) :
    store xs (n : Int) v = if n < xs.length then .ok (xs.set n v) else .error .indexOutOfRange := by
  simp [store]

theorem store_neg {α : Type} (xs : List α) (i : Int) (v : α) (h : i < 0) :
    store xs i v = .error .indexOutOfRange := by
  simp [store]; omega

theorem index_neg {α : Type} (xs : List α) (i : Int) (h : i < 0) :
    index xs i = .error .indexOutOfRange := by
  simp [index]; omega

/-- The scan of `RegisterCallback` returns the first free index at or after `next`,
or the array length when there is none. -/
theorem scanFree_spec {H : Type} (cbs : List (Option H)) :
    ∀ (fuel next : Nat), cbs.length - next ≤ fuel →
      ∃ r, scanFree cbs cbs.length fuel next = .ok r ∧ next ≤ r ∧ (r ≤ cbs.length ∨ r = next) ∧
        (∀ n, next ≤ n → n < r → LiveAt cbs n) ∧ (r < cbs.length → cbs[r]? = some none) := by
  intro fuel
  induction fuel with
  | zero =>
    intro next hf
    refine ⟨next, rfl, le_refl _, Or.inr rfl, ?_, ?_⟩
    · intro n h1 h2; omega
    · intro h; omega
  | succ k ih =>
    intro next hf
    unfold scanFree
    by_cases hlt : next < cbs.length
    · rw [if_pos hlt, index_natCast]
      have hsome : cbs[next]? = some cbs[next] := List.getElem?_eq_getElem hlt
      cases hv : cbs[next] with
      | none =>
        rw [hsome, hv]
        refine ⟨next, rfl, le_refl _, Or.inr rfl, ?_, ?_⟩
        · intro n h1 h2; omega
        · intro _; rw [hsome, hv]
      | some h =>
        rw [hsome, hv]
        obtain ⟨r, hr, h1, h2, h3, h4⟩ := ih (next + 1) (by omega)
        refine ⟨r, hr, by omega, Or.inl (by omega), ?_, h4⟩
        intro n hn1 hn2
        by_cases hn : n = next
        · subst hn; exact ⟨h, by rw [hsome, hv]⟩
        · exact h3 n (by omega) hn2
    · rw [if_neg hlt]
      refine ⟨next, rfl, le_refl _, Or.inr rfl, ?_, ?_⟩
      · intro n h1 h2; omega
      · intro h; omega

/-- The loop of `resizeCbArray` stops right above the last live slot below `i`. -/
theorem resizeLoop_spec {H : Type} (cbs : List (Option H)) :
    ∀ (i : Nat) (cut : Bool), i ≤ cbs.length →
      ∃ r, resizeLoop cbs i cut = .ok (r, cut || decide (r < i)) ∧ r ≤ i ∧
        (∀ n, r ≤ n → n < i → cbs[n]? = some none) ∧ (∀ n, r = n + 1 → LiveAt cbs n) := by
  intro i
  induction i with
  | zero =>
    intro cut _
    refine ⟨0, by simp [resizeLoop], le_refl _, ?_, ?_⟩
    · intro n h1 h2; omega
    · intro n h; omega
  | succ k ih =>
    intro cut hk
    unfold resizeLoop
    rw [index_natCast]
    have hlt : k < cbs.length := by omega
    have hsome : cbs[k]? = some cbs[k] := List.getElem?_eq_getElem hlt
    cases hv : cbs[k] with
    | none =>
      rw [hsome, hv]
      obtain ⟨r, hr, h1, h2, h3⟩ := ih true (by omega)
      refine ⟨r, ?_, by omega, ?_, h3⟩
      · rw [hr]
        have : decide (r < k + 1) = true := by simp; omega
        simp [this]
      · intro n hn1 hn2
        by_cases hn : n = k
        · subst hn; rw [hsome, hv]
        · exact h2 n hn1 (by omega)
    | some h =>
      rw [hsome, hv]
      refine ⟨k + 1, by simp, le_refl _, ?_, ?_⟩
      · intro n h1 h2; omega
      · intro n hn
        have : n = k := by omega
        subst this; exact ⟨h, by rw [hsome, hv]⟩

theorem slot_natCast {H : Type} (b : Broker H) (n : Nat) :
    slot b (n : Int) = (b.Callbacks[n]?).join := by
  simp [slot]

theorem slot_neg {H : Type} (b : Broker H) (i : Int) (h : i < 0) : slot b i = none := by
  simp [slot]; omega

theorem slot_eq_some {H : Type} (b : Broker H) (i : Int) (h : H) (hs : slot b i = some h) :
    ∃ n : Nat, i = (n : Int) ∧ b.Callbacks[n]? = some (some h) ∧ n < b.Callbacks.length := by
  by_cases hi : 0 ≤ i
  · obtain ⟨n, rfl⟩ := Int.eq_ofNat_of_zero_le hi
    rw [slot_natCast] at hs
    refine ⟨n, rfl, ?_, ?_⟩
    · cases hv : b.Callbacks[n]? with
      | none => rw [hv] at hs; simp at hs
      | some v => rw [hv] at hs; simp at hs; rw [hs]
    · by_contra hlt
      rw [List.getElem?_eq_none (by omega)] at hs
      simp at hs
  · rw [slot_neg b i (by omega)] at hs
    cases hs

/-- Registration under the invariant: the call returns the cursor, keeps the
invariant with the new registration entered in the ledger, and never shrinks the array. -/
theorem RegisterCallback_spec {H : Type} (b : Broker H) (m : Ledger H) (fn : H) (hinv : Inv b m) :
    ∃ b', RegisterCallback b (some fn) = .ok (b', b.cbFree) ∧ Inv b' ((b.cbFree, fn) :: m) ∧
      slot b' b.cbFree = some fn ∧ b.Callbacks.length ≤ b'.Callbacks.length := by
  obtain ⟨cbs, free⟩ := b
  obtain ⟨h0, hle, hbelow, hat, hlast, hled⟩ := hinv
  simp only at h0 hle hbelow hat hlast
  obtain ⟨c, rfl⟩ := Int.eq_ofNat_of_zero_le h0
  have hc : c ≤ cbs.length := by omega
  unfold RegisterCallback
  simp only
  by_cases hfull : c = cbs.length
  · subst hfull
    rw [if_pos rfl]
    refine ⟨_, rfl, ?_, ?_, ?_⟩
    · refine ⟨by simp only; omega, by simp, ?_, ?_, ?_, ?_⟩
      · intro n hn
        simp only at hn ⊢
        by_cases hn2 : n < cbs.length
        · obtain ⟨h, hh⟩ := hbelow n (by omega)
          exact ⟨h, by rw [List.getElem?_append_left hn2]; exact hh⟩
        · have : n = cbs.length := by omega
          subst this
          exact ⟨fn, by simp⟩
      · intro n hn hlt
        simp only [List.length_append, List.length_singleton] at hn hlt
        omega
      · intro n hn
        simp only [List.length_append, List.length_singleton] at hn
        have : n = cbs.length := by omega
        subst this
        exact ⟨fn, by simp⟩
      · intro id
        simp only [Ledger.handler]
        by_cases hid : (cbs.length : Int) = id
        · subst hid
          rw [if_pos rfl, slot_natCast]; simp
        · rw [if_neg hid, hled id]
          by_cases hi : 0 ≤ id
          · obtain ⟨n, rfl⟩ := Int.eq_ofNat_of_zero_le hi
            rw [slot_natCast, slot_natCast]
            simp only
            have hne : n ≠ cbs.length := by omega
            by_cases hn2 : n < cbs.length
            · rw [List.getElem?_append_left hn2]
            · rw [List.getElem?_eq_none (by omega), List.getElem?_eq_none (by simp; omega)]
          · rw [slot_neg _ _ (by omega), slot_neg _ _ (by omega)]
    · rw [slot_natCast]; simp
    · simp
  · have hlt : c < cbs.length := by omega
    rw [if_neg (by omega), store_natCast, if_pos hlt]
    simp only [Int.toNat_ofNat]
    obtain ⟨r, hr, h1, h2, h3, h4⟩ :=
      scanFree_spec (cbs.set c (some fn)) (cbs.length - (c + 1)) (c + 1) (by simp)
    rw [List.length_set] at hr h2 h4
    rw [hr]
    refine ⟨_, rfl, ?_, ?_, ?_⟩
    · refine ⟨by simp, by simp only [List.length_set]; omega, ?_, ?_, ?_, ?_⟩
      · intro n hn
        simp only at hn ⊢
        by_cases hnc : n < c
        · obtain ⟨h, hh⟩ := hbelow n (by omega)
          exact ⟨h, by rw [List.getElem?_set_ne (by omega)]; exact hh⟩
        · by_cases hnc2 : n = c
          · subst hnc2
            exact ⟨fn, List.getElem?_set_self hlt⟩
          · exact h3 n (by omega) (by omega)
      · intro n hn hn2
        simp only [List.length_set] at hn hn2 ⊢
        have : n = r := by omega
        subst this
        exact h4 hn2
      · intro n hn
        simp only [List.length_set] at hn ⊢
        by_cases hnc : n = c
        · subst hnc
          exact ⟨fn, List.getElem?_set_self hlt⟩
        · obtain ⟨h, hh⟩ := hlast n hn
          exact ⟨h, by rw [List.getElem?_set_ne (by omega)]; exact hh⟩
      · intro id
        simp only [Ledger.handler]
        by_cases hid : (c : Int) = id
        · subst hid
          rw [if_pos rfl, slot_natCast]
          simp only
          rw [List.getElem?_set_self hlt]; rfl
        · rw [if_neg hid, hled id]
          by_cases hi : 0 ≤ id
          · obtain ⟨n, rfl⟩ := Int.eq_ofNat_of_zero_le hi
            rw [slot_natCast, slot_natCast]
            simp only
            rw [List.getElem?_set_ne (by omega)]
          · rw [slot_neg _ _ (by omega), slot_neg _ _ (by omega)]
    · rw [slot_natCast]
      simp only
      rw [List.getElem?_set_self hlt]; rfl
    · simp

/-- The tail trim: `resizeCbArray` never panics; it cuts the array right above its
last live slot and pulls the cursor back into the array. -/
theorem resizeCbArray_spec {H : Type} (b : Broker H) :
    ∃ r, resizeCbArray b = .ok (if r < b.Callbacks.length then
          { Callbacks := b.Callbacks.take r,
            cbFree := if b.cbFree > (r : Int) then (r : Int) else b.cbFree } else b) ∧
      r ≤ b.Callbacks.length ∧
      (∀ n, r ≤ n → n < b.Callbacks.length → b.Callbacks[n]? = some none) ∧
      (∀ n, r = n + 1 → LiveAt b.Callbacks n) := by
  obtain ⟨r, hr, h1, h2, h3⟩ := resizeLoop_spec b.Callbacks b.Callbacks.length false (le_refl _)
  refine ⟨r, ?_, h1, h2, h3⟩
  unfold resizeCbArray
  rw [hr]
  by_cases hlt : r < b.Callbacks.length
  · simp [hlt]
  · simp [hlt]

theorem Ledger.handler_release {H : Type} (m : Ledger H) (id j : Int) :
    Ledger.handler (Ledger.release m id) j = if j = id then none else Ledger.handler m j := by
  induction m with
  | nil => simp [Ledger.release, Ledger.handler]
  | cons e rest ih =>
    obtain ⟨k, h⟩ := e
    unfold Ledger.release at ih ⊢
    by_cases hk : k = id
    · subst hk
      rw [List.filter_cons_of_neg (by simp), ih]
      by_cases hj : j = k
      · simp [hj]
      · have hkj : ¬ k = j := fun e => hj e.symm
        simp [Ledger.handler, hj, hkj]
    · rw [List.filter_cons_of_pos (by simpa using hk)]
      simp only [Ledger.handler]
      rw [ih]
      by_cases hj : j = id
      · subst hj
        simp [hk]
      · simp [hj]

/-- Release of a live id under the invariant: the call returns, the slot held the
registered handler, and the invariant holds again with the id struck from the ledger. -/
theorem RemoveCallback_spec {H : Type} (b : Broker H) (m : Ledger H) (id : Int) (h : H)
    (hinv : Inv b m) (hlive : m.handler id = some h) :
    ∃ b', RemoveCallback b id = .ok b' ∧ index b.Callbacks id = .ok (some h) ∧
      Inv b' (m.release id) := by
  obtain ⟨cbs, free⟩ := b
  obtain ⟨h0, hle, hbelow, hat, hlast, hled⟩ := hinv
  simp only at h0 hle hbelow hat hlast
  obtain ⟨c, rfl⟩ := Int.eq_ofNat_of_zero_le h0
  have hc : c ≤ cbs.length := by omega
  rw [hled id] at hlive
  obtain ⟨k, rfl, hk, hklt⟩ := slot_eq_some _ _ _ hlive
  simp only at hk hklt
  have hkc : k ≠ c := by
    intro e
    subst e
    have := hat k rfl hklt
    rw [hk] at this
    cases this
  unfold RemoveCallback
  simp only
  rw [store_natCast, if_pos hklt, index_natCast, hk]
  simp only
  obtain ⟨r, hr, h1, h2, h3⟩ := resizeCbArray_spec
    ({ Callbacks := cbs.set k none, cbFree := if (k : Int) < (c : Int) then (k : Int) else (c : Int) } : Broker H)
  simp only [List.length_set] at hr h1 h2 h3
  -- the cursor after the rewind, as a natural number
  obtain ⟨f, hf, hfc, hfk⟩ : ∃ f : Nat, (if (k : Int) < (c : Int) then (k : Int) else (c : Int)) = (f : Int) ∧
      f ≤ c ∧ (f = k ∨ (f = c ∧ c < k)) := by
    by_cases hlt : k < c
    · exact ⟨k, by rw [if_pos (by omega)], by omega, Or.inl rfl⟩
    · exact ⟨c, by rw [if_neg (by omega)], le_refl _, Or.inr ⟨rfl, by omega⟩⟩
  rw [hf] at hr
  have hset : ∀ n, n ≠ k → (cbs.set k none)[n]? = cbs[n]? := fun n hn =>
    List.getElem?_set_ne (fun e => hn e.symm)
  have hsetk : (cbs.set k none)[k]? = some none := List.getElem?_set_self hklt
  -- live slots lie below the cut
  have hbelow_r : ∀ n, LiveAt (cbs.set k none) n → n < r := by
    intro n ⟨g, hg⟩
    by_contra hn
    have hnlen : n < cbs.length := by
      by_contra hnl
      rw [List.getElem?_eq_none (by simp; omega)] at hg
      cases hg
    have := h2 n (by omega) hnlen
    rw [this] at hg
    cases hg
  have hlive1 : ∀ n, n < f → LiveAt (cbs.set k none) n := by
    intro n hn
    obtain ⟨g, hg⟩ := hbelow n (by omega)
    exact ⟨g, by rw [hset n (by omega)]; exact hg⟩
  have hfr : f ≤ r := by
    by_contra hcon
    have := hbelow_r r (hlive1 r (by omega))
    omega
  have hres : (if r < cbs.length then
        ({ Callbacks := (cbs.set k none).take r,
           cbFree := if (f : Int) > (r : Int) then (r : Int) else (f : Int) } : Broker H)
        else { Callbacks := cbs.set k none, cbFree := (f : Int) }) =
      { Callbacks := (cbs.set k none).take r, cbFree := (f : Int) } := by
    by_cases hlt : r < cbs.length
    · rw [if_pos hlt, if_neg (by omega)]
    · rw [if_neg hlt, List.take_of_length_le (by simp; omega)]
  rw [hres] at hr
  rw [hf]
  refine ⟨_, hr, trivial, ?_⟩
  refine ⟨by simp, by simp [List.length_take]; omega, ?_, ?_, ?_, ?_⟩
  · intro n hn
    simp only at hn ⊢
    obtain ⟨g, hg⟩ := hlive1 n (by omega)
    exact ⟨g, by rw [List.getElem?_take_of_lt (by omega)]; exact hg⟩
  · intro n hn hn2
    simp only [List.length_take, List.length_set] at hn hn2 ⊢
    have hnf : n = f := by omega
    subst hnf
    rw [List.getElem?_take_of_lt (by omega)]
    rcases hfk with e | ⟨e, hck⟩
    · subst e; exact hsetk
    · subst e
      rw [hset n (by omega)]
      exact hat n rfl (by omega)
  · intro n hn
    simp only [List.length_take, List.length_set] at hn ⊢
    obtain ⟨g, hg⟩ := h3 n (by omega)
    exact ⟨g, by rw [List.getElem?_take_of_lt (by omega)]; exact hg⟩
  · intro j
    rw [Ledger.handler_release, hled j]
    by_cases hj : j = (k : Int)
    · subst hj
      rw [if_pos rfl, slot_natCast]
      simp only
      rw [List.getElem?_take]
      by_cases hkr : k < r
      · rw [if_pos hkr, hsetk]; rfl
      · rw [if_neg hkr]; rfl
    · rw [if_neg hj]
      by_cases hi : 0 ≤ j
      · obtain ⟨n, rfl⟩ := Int.eq_ofNat_of_zero_le hi
        have hnk : n ≠ k := by omega
        rw [slot_natCast, slot_natCast]
        simp only
        rw [List.getElem?_take]
        by_cases hnr : n < r
        · rw [if_pos hnr, hset n hnk]
        · rw [if_neg hnr]
          by_cases hnl : n < cbs.length
          · have := h2 n (by omega) hnl
            rw [hset n hnk] at this
            rw [this]; rfl
          · rw [List.getElem?_eq_none (by omega)]
      · rw [slot_neg _ _ (by omega), slot_neg _ _ (by omega)]

theorem Inv_empty {H : Type} : Inv (Broker.empty : Broker H) [] := by
  refine ⟨by simp [Broker.empty], by simp [Broker.empty], ?_, ?_, ?_, ?_⟩
  · intro n hn
    simp [Broker.empty] at hn
    omega
  · intro n _ hn
    simp [Broker.empty] at hn
  · intro n hn
    simp [Broker.empty] at hn
  · intro id
    simp [Ledger.handler, slot, Broker.empty]

/-- Behaviour of `SpliceCallback` on a live id under the invariant: it returns the registered
handler and leaves the registry as `RemoveCallback` does. -/
theorem SpliceCallback_spec {H : Type} (b : Broker H) (m : Ledger H) (id : Int) (h : H)
    (hinv : Inv b m) (hlive : m.handler id = some h) :
    ∃ b', SpliceCallback b id = .ok (some h, b') ∧ RemoveCallback b id = .ok b' ∧
      Inv b' (m.release id) := by
  obtain ⟨b', h1, h2, h3⟩ := RemoveCallback_spec b m id h hinv hlive
  refine ⟨b', ?_, h1, h3⟩
  unfold SpliceCallback
  rw [h2, h1]

/-- Every call sequence keeps the invariant. -/
theorem replay_inv {H : Type} (calls : List (Call H)) :
    ∀ (b : Broker H) (m : Ledger H), Inv b m →
      ∀ b' m', replay calls (b, m) = .done (b', m') → Inv b' m' := by
  induction calls with
  | nil =>
    intro b m hinv b' m' h
    simp only [replay, Outcome.done.injEq, Prod.mk.injEq] at h
    obtain ⟨rfl, rfl⟩ := h
    exact hinv
  | cons c rest ih =>
    intro b m hinv b' m' h
    cases c with
    | register fn =>
      obtain ⟨b1, h1, h2, _⟩ := RegisterCallback_spec b m fn hinv
      simp only [replay, h1] at h
      exact ih _ _ h2 _ _ h
    | remove id =>
      cases hl : m.handler id with
      | none => simp [replay, hl] at h
      | some g =>
        obtain ⟨b1, h1, _, h2⟩ := RemoveCallback_spec b m id g hinv hl
        simp only [replay, hl, h1] at h
        exact ih _ _ h2 _ _ h
    | splice id =>
      cases hl : m.handler id with
      | none => simp [replay, hl] at h
      | some g =>
        obtain ⟨b1, h1, _, h2⟩ := SpliceCallback_spec b m id g hinv hl
        simp only [replay, hl, h1] at h
        exact ih _ _ h2 _ _ h

/-- The registry code never panics on a call sequence: the only way a sequence
does not run to its end is a release of an id that is not live. -/
theorem replay_never_crashes {H : Type} (calls : List (Call H)) :
    ∀ (b : Broker H) (m : Ledger H), Inv b m → ∀ p, replay calls (b, m) ≠ .crashed p := by
  induction calls with
  | nil =>
    intro b m _ p h
    simp [replay] at h
  | cons c rest ih =>
    intro b m hinv p h
    cases c with
    | register fn =>
      obtain ⟨b1, h1, h2, _⟩ := RegisterCallback_spec b m fn hinv
      simp only [replay, h1] at h
      exact ih _ _ h2 p h
    | remove id =>
      cases hl : m.handler id with
      | none => simp [replay, hl] at h
      | some g =>
        obtain ⟨b1, h1, _, h2⟩ := RemoveCallback_spec b m id g hinv hl
        simp only [replay, hl, h1] at h
        exact ih _ _ h2 p h
    | splice id =>
      cases hl : m.handler id with
      | none => simp [replay, hl] at h
      | some g =>
        obtain ⟨b1, h1, _, h2⟩ := SpliceCallback_spec b m id g hinv hl
        simp only [replay, hl, h1] at h
        exact ih _ _ h2 p h

theorem Reachable.inv {H : Type} {b : Broker H} {m : Ledger H} (h : Reachable b m) : Inv b m := by
  obtain ⟨calls, hc⟩ := h
  exact replay_inv calls _ _ Inv_empty _ _ hc

/-- Under the invariant every id below the cursor is live in the ledger and the
cursor itself is not. -/
theorem Inv.cursor_least {H : Type} {b : Broker H} {m : Ledger H} (hinv : Inv b m) :
    m.handler b.cbFree = none ∧ ∀ j : Int, 0 ≤ j → j < b.cbFree → (m.handler j).isSome = true := by
  obtain ⟨h0, hle, hbelow, hat, hlast, hled⟩ := hinv
  obtain ⟨c, hc⟩ := Int.eq_ofNat_of_zero_le h0
  constructor
  · rw [hled, hc, slot_natCast]
    by_cases hlt : c < b.Callbacks.length
    · rw [hat c hc.symm hlt]; rfl
    · rw [List.getElem?_eq_none (by omega)]; rfl
  · intro j hj0 hj
    obtain ⟨n, rfl⟩ := Int.eq_ofNat_of_zero_le hj0
    obtain ⟨g, hg⟩ := hbelow n hj
    rw [hled, slot_natCast, hg]; rfl

/-- Under the invariant a release of a free slot inside the array changes nothing. -/
theorem RemoveCallback_hole {H : Type} (b : Broker H) (m : Ledger H) (id : Int)
    (hinv : Inv b m) (hfree : m.handler id = none) (h0 : 0 ≤ id)
    (hlt : id < (b.Callbacks.length : Int)) :
    RemoveCallback b id = .ok b ∧ SpliceCallback b id = .ok (none, b) := by
  obtain ⟨cbs, free⟩ := b
  have hcur := hinv.cursor_least
  obtain ⟨hf0, hle, hbelow, hat, hlast, hled⟩ := hinv
  simp only at hf0 hle hbelow hat hlast hlt hcur
  obtain ⟨k, rfl⟩ := Int.eq_ofNat_of_zero_le h0
  have hk : k < cbs.length := by omega
  have hnone : cbs[k]? = some none := by
    have := hled (k : Int)
    rw [hfree, slot_natCast] at this
    simp only at this
    rw [List.getElem?_eq_getElem hk] at this ⊢
    cases hv : cbs[k] with
    | none => rfl
    | some g => rw [hv] at this; cases this
  have hkf : ¬ (k : Int) < free := by
    intro hlt2
    have := hcur.2 (k : Int) h0 hlt2
    rw [hfree] at this
    cases this
  have hsetid : cbs.set k none = cbs := by
    apply List.ext_getElem?
    intro n
    by_cases hn : n = k
    · subst hn; rw [List.getElem?_set_self hk, hnone]
    · rw [List.getElem?_set_ne (fun e => hn e.symm)]
  have hrem : RemoveCallback ({ Callbacks := cbs, cbFree := free } : Broker H) (k : Int) =
      .ok { Callbacks := cbs, cbFree := free } := by
    unfold RemoveCallback
    simp only
    rw [store_natCast, if_pos hk, hsetid, if_neg hkf]
    obtain ⟨r, hr, h1, h2, h3⟩ := resizeCbArray_spec ({ Callbacks := cbs, cbFree := free } : Broker H)
    simp only at hr h1 h2 h3
    have hrlen : ¬ r < cbs.length := by
      intro hlt3
      obtain ⟨n, hn⟩ : ∃ n, cbs.length = n + 1 := ⟨cbs.length - 1, by omega⟩
      obtain ⟨g, hg⟩ := hlast n hn
      have := h2 n (by omega) (by omega)
      rw [this] at hg
      cases hg
    rw [if_neg hrlen] at hr
    exact hr
  refine ⟨hrem, ?_⟩
  unfold SpliceCallback
  rw [index_natCast, hnone, hrem]

/-! ### The registry claims -/

/-- C1: after any sequence of registrations (of non-nil handlers) and releases of
live ids applied to the empty registry, `RegisterCallback` returns normally and the
id it returns is not live at the moment of the call: no live id is handed out again
before it is released. -/
theorem register_id_not_live {H : Type} (calls : List (Call H)) (b : Broker H) (m : Ledger H)
    (fn : H) (hreach : replay calls (Broker.empty, []) = .done (b, m)) :
    ∃ b' id, RegisterCallback b (some fn) = .ok (b', id) ∧ m.handler id = none ∧
      ∀ j : Int, (m.handler j).isSome = true → j ≠ id := by
  have hinv : Inv b m := Reachable.inv ⟨calls, hreach⟩
  obtain ⟨b', h1, _, _, _⟩ := RegisterCallback_spec b m fn hinv
  refine ⟨b', b.cbFree, h1, hinv.cursor_least.1, ?_⟩
  intro j hj e
  subst e
  rw [hinv.cursor_least.1] at hj
  cases hj

theorem register_id_not_live_witness :
    ∃ b' id, RegisterCallback (⟨[none, some "b", some "c"], 0⟩ : Broker String) (some "z") = .ok (b', id) ∧
      Ledger.handler [((2 : Int), "c"), (1, "b")] id = none ∧
      ∀ j : Int, (Ledger.handler [((2 : Int), "c"), (1, "b")] j).isSome = true → j ≠ id :=
  register_id_not_live [Call.register "a", .register "b", .register "c", .remove 0]
    ⟨[none, some "b", some "c"], 0⟩ [(2, "c"), (1, "b")] "z" (by decide)

/-- C2: in every reachable registry state `RegisterCallback(fn)` returns the least
natural number that is not a live id (every smaller id is live, the returned one is
not); it is a free slot inside the array when it is smaller than the array length
and the array length otherwise, and afterwards slot `id` holds `fn`. -/
theorem register_returns_least_free_id {H : Type} (calls : List (Call H)) (b : Broker H)
    (m : Ledger H) (fn : H) (hreach : replay calls (Broker.empty, []) = .done (b, m)) :
    ∃ b' id, RegisterCallback b (some fn) = .ok (b', id) ∧
      0 ≤ id ∧ m.handler id = none ∧
      (∀ j : Int, 0 ≤ j → j < id → (m.handler j).isSome = true) ∧
      id ≤ (b.Callbacks.length : Int) ∧
      (id < (b.Callbacks.length : Int) → index b.Callbacks id = .ok none) ∧
      index b'.Callbacks id = .ok (some fn) := by
  have hinv : Inv b m := Reachable.inv ⟨calls, hreach⟩
  obtain ⟨b', h1, _, h3, _⟩ := RegisterCallback_spec b m fn hinv
  refine ⟨b', b.cbFree, h1, hinv.free_nonneg, hinv.cursor_least.1, hinv.cursor_least.2,
    hinv.free_le, ?_, ?_⟩
  · intro hlt
    obtain ⟨c, hc⟩ := Int.eq_ofNat_of_zero_le hinv.free_nonneg
    rw [hc, index_natCast, hinv.at_free c hc.symm (by omega)]
  · obtain ⟨n, hn, hcell, _⟩ := slot_eq_some _ _ _ h3
    rw [hn, index_natCast, hcell]

theorem register_returns_least_free_id_witness :
    ∃ b' id, RegisterCallback (⟨[some "a", none, some "c"], 1⟩ : Broker String) (some "z") = .ok (b', id) ∧
      0 ≤ id ∧ Ledger.handler [((2 : Int), "c"), (0, "a")] id = none ∧
      (∀ j : Int, 0 ≤ j → j < id → (Ledger.handler [((2 : Int), "c"), (0, "a")] j).isSome = true) ∧
      id ≤ (([some "a", none, some "c"] : List (Option String)).length : Int) ∧
      (id < (([some "a", none, some "c"] : List (Option String)).length : Int) →
        index [some "a", none, some "c"] id = .ok none) ∧
      index b'.Callbacks id = .ok (some "z") :=
  register_returns_least_free_id [Call.register "a", .register "b", .register "c", .remove 1]
    ⟨[some "a", none, some "c"], 1⟩ [(2, "c"), (0, "a")] "z" (by decide)

/-- C3: in every reachable registry state and for every live id, `SpliceCallback(id)`
returns the handler that was passed to the registration that returned `id` (and
`RemoveCallback(id)` leaves the same registry); afterwards `id` is not live, and
every other live id is still live with the same handler in the slot of the same index. -/
theorem splice_returns_and_removes_exactly_one {H : Type} (calls : List (Call H)) (b : Broker H)
    (m : Ledger H) (id : Int) (h : H)
    (hreach : replay calls (Broker.empty, []) = .done (b, m))
    (hlive : m.handler id = some h) :
    ∃ b', SpliceCallback b id = .ok (some h, b') ∧ RemoveCallback b id = .ok b' ∧
      (m.release id).handler id = none ∧ slot b' id = none ∧
      ∀ j : Int, j ≠ id → ∀ g, m.handler j = some g →
        (m.release id).handler j = some g ∧ slot b' j = some g ∧
          index b'.Callbacks j = .ok (some g) := by
  have hinv : Inv b m := Reachable.inv ⟨calls, hreach⟩
  obtain ⟨b', h1, h2, h3⟩ := SpliceCallback_spec b m id h hinv hlive
  have hrel : ∀ j, (m.release id).handler j = if j = id then none else m.handler j :=
    Ledger.handler_release m id
  refine ⟨b', h1, h2, by rw [hrel, if_pos rfl], by rw [← h3.ledger, hrel, if_pos rfl], ?_⟩
  intro j hj g hg
  have hs : slot b' j = some g := by rw [← h3.ledger, hrel, if_neg hj, hg]
  refine ⟨by rw [hrel, if_neg hj, hg], hs, ?_⟩
  obtain ⟨n, hn, hcell, _⟩ := slot_eq_some _ _ _ hs
  rw [hn, index_natCast, hcell]

theorem splice_returns_and_removes_exactly_one_witness :
    ∃ b', SpliceCallback (⟨[some "a", some "b", some "c"], 3⟩ : Broker String) 2 = .ok (some "c", b') ∧
      RemoveCallback (⟨[some "a", some "b", some "c"], 3⟩ : Broker String) 2 = .ok b' ∧
      (Ledger.release [((2 : Int), "c"), (1, "b"), (0, "a")] 2).handler 2 = none ∧ slot b' 2 = none ∧
      ∀ j : Int, j ≠ 2 → ∀ g, Ledger.handler [((2 : Int), "c"), (1, "b"), (0, "a")] j = some g →
        (Ledger.release [((2 : Int), "c"), (1, "b"), (0, "a")] 2).handler j = some g ∧
          slot b' j = some g ∧ index b'.Callbacks j = .ok (some g) :=
  splice_returns_and_removes_exactly_one [Call.register "a", .register "b", .register "c"]
    ⟨[some "a", some "b", some "c"], 3⟩ [(2, "c"), (1, "b"), (0, "a")] 2 "c" (by decide) (by decide)

/-- C4, as stated, fails: after registering three handlers and removing id 1, id 1 is
not live (registered and already released), yet `SpliceCallback(1)` and
`RemoveCallback(1)` return normally; the splice yields a nil handler and the registry
is unchanged. -/
theorem release_of_released_hole_returns :
    replay [Call.register "a", .register "b", .register "c", .remove 1] (Broker.empty, []) =
        .done (⟨[some "a", none, some "c"], 1⟩, [(2, "c"), (0, "a")]) ∧
      Ledger.handler [((2 : Int), "c"), (0, "a")] 1 = none ∧
      SpliceCallback (⟨[some "a", none, some "c"], 1⟩ : Broker String) 1 =
        .ok (none, ⟨[some "a", none, some "c"], 1⟩) ∧
      RemoveCallback (⟨[some "a", none, some "c"], 1⟩ : Broker String) 1 =
        .ok ⟨[some "a", none, some "c"], 1⟩ := by
  decide

/-- C4, amended: in every reachable registry state `SpliceCallback(id)` and
`RemoveCallback(id)` fail, with an index-out-of-range panic, exactly when `id` is
negative or not below the length of the slot array; every live id is inside the
array, so a release of a live id returns normally, and so does a release of a
non-live id that is a free slot inside the array (the splice then returns nil and
the registry is unchanged). -/
theorem release_fails_iff_outside_array {H : Type} (calls : List (Call H)) (b : Broker H)
    (m : Ledger H) (id : Int) (hreach : replay calls (Broker.empty, []) = .done (b, m)) :
    (¬ (0 ≤ id ∧ id < (b.Callbacks.length : Int)) →
      SpliceCallback b id = .error .indexOutOfRange ∧
        RemoveCallback b id = .error .indexOutOfRange) ∧
    ((0 ≤ id ∧ id < (b.Callbacks.length : Int)) →
      returns (SpliceCallback b id) = true ∧ returns (RemoveCallback b id) = true) ∧
    ((m.handler id).isSome = true → 0 ≤ id ∧ id < (b.Callbacks.length : Int)) ∧
    (m.handler id = none → 0 ≤ id → id < (b.Callbacks.length : Int) →
      SpliceCallback b id = .ok (none, b) ∧ RemoveCallback b id = .ok b) := by
  have hinv : Inv b m := Reachable.inv ⟨calls, hreach⟩
  have hin : (m.handler id).isSome = true → 0 ≤ id ∧ id < (b.Callbacks.length : Int) := by
    intro hl
    obtain ⟨g, hg⟩ := Option.isSome_iff_exists.mp hl
    rw [hinv.ledger] at hg
    obtain ⟨n, hn, _, hlt⟩ := slot_eq_some _ _ _ hg
    omega
  refine ⟨?_, ?_, hin, ?_⟩
  · intro hout
    have hidx : index b.Callbacks id = .error .indexOutOfRange := by
      by_cases h0 : 0 ≤ id
      · obtain ⟨n, rfl⟩ := Int.eq_ofNat_of_zero_le h0
        rw [index_natCast, List.getElem?_eq_none (by omega)]
      · exact index_neg _ _ (by omega)
    have hst : store b.Callbacks id (none : Option H) = .error .indexOutOfRange := by
      unfold store
      rw [if_neg hout]
    constructor
    · unfold SpliceCallback; rw [hidx]
    · unfold RemoveCallback; rw [hst]
  · intro hrange
    cases hl : m.handler id with
    | none =>
      obtain ⟨h1, h2⟩ := RemoveCallback_hole b m id hinv hl hrange.1 hrange.2
      rw [h1, h2]; exact ⟨rfl, rfl⟩
    | some g =>
      obtain ⟨b', h1, h2, _⟩ := SpliceCallback_spec b m id g hinv hl
      rw [h1, h2]; exact ⟨rfl, rfl⟩
  · intro hl h0 hlt
    obtain ⟨h1, h2⟩ := RemoveCallback_hole b m id hinv hl h0 hlt
    exact ⟨h2, h1⟩

theorem release_fails_iff_outside_array_witness :
    (¬ (0 ≤ (5 : Int) ∧ (5 : Int) < (([some "a", none, some "c"] : List (Option String)).length : Int)) →
      SpliceCallback (⟨[some "a", none, some "c"], 1⟩ : Broker String) 5 = .error .indexOutOfRange ∧
        RemoveCallback (⟨[some "a", none, some "c"], 1⟩ : Broker String) 5 = .error .indexOutOfRange) ∧
    ((0 ≤ (5 : Int) ∧ (5 : Int) < (([some "a", none, some "c"] : List (Option String)).length : Int)) →
      returns (SpliceCallback (⟨[some "a", none, some "c"], 1⟩ : Broker String) 5) = true ∧
        returns (RemoveCallback (⟨[some "a", none, some "c"], 1⟩ : Broker String) 5) = true) ∧
    ((Ledger.handler [((2 : Int), "c"), (0, "a")] 5).isSome = true →
      0 ≤ (5 : Int) ∧ (5 : Int) < (([some "a", none, some "c"] : List (Option String)).length : Int)) ∧
    (Ledger.handler [((2 : Int), "c"), (0, "a")] 5 = none → 0 ≤ (5 : Int) →
      (5 : Int) < (([some "a", none, some "c"] : List (Option String)).length : Int) →
      SpliceCallback (⟨[some "a", none, some "c"], 1⟩ : Broker String) 5 =
          .ok (none, ⟨[some "a", none, some "c"], 1⟩) ∧
        RemoveCallback (⟨[some "a", none, some "c"], 1⟩ : Broker String) 5 =
          .ok ⟨[some "a", none, some "c"], 1⟩) :=
  release_fails_iff_outside_array [Call.register "a", .register "b", .register "c", .remove 1]
    ⟨[some "a", none, some "c"], 1⟩ [(2, "c"), (0, "a")] 5 (by decide)

/-! ## Properties of the client read loop -/

/-- Decoding a list of lines that all decode gives one command per line. -/
theorem filterMap_length_of_all_decode (unmarshal : List UInt8 → Option ClientCommand) :
    ∀ (ls : List (List UInt8)), (∀ l ∈ ls, ∃ cmd, unmarshal l = some cmd) →
      (ls.filterMap unmarshal).length = ls.length := by
  intro ls
  induction ls with
  | nil => intro _; rfl
  | cons l rest ih =>
    intro h
    obtain ⟨cmd, hcmd⟩ := h l (List.mem_cons_self _ _)
    rw [List.filterMap_cons_some hcmd, List.length_cons, List.length_cons,
      ih (fun x hx => h x (List.mem_cons_of_mem _ hx))]

/-- When every completed line decodes and the execution of every decoded command
returns, the loop dispatches all decoded lines, one by one and in order, and ends
on the read error. -/
theorem handleClientLoop_all_return {Conn E : Type}
    (unmarshal : List UInt8 → Option ClientCommand) (exec : ClientCommand → Conn → Run E)
    (c : Conn) :
    ∀ (reads : List (List UInt8 × Bool)) (buf : List UInt8),
      (∀ l ∈ completedLines reads buf, ∃ cmd, unmarshal l = some cmd) →
      (∀ x ∈ (completedLines reads buf).filterMap unmarshal, (exec x c).panicked = none) →
      handleClientLoop unmarshal exec c reads buf =
        { dispatched := (completedLines reads buf).filterMap unmarshal,
          events := eventsOfAll exec c ((completedLines reads buf).filterMap unmarshal),
          panicked := none } := by
  intro reads
  induction reads with
  | nil =>
    intro buf _ _
    simp [handleClientLoop, completedLines, eventsOfAll]
  | cons r rest ih =>
    intro buf hvalid hret
    obtain ⟨bytes, isPrefix⟩ := r
    cases isPrefix with
    | true =>
      simp only [completedLines] at hvalid hret ⊢
      simp only [handleClientLoop, if_true]
      exact ih (buf ++ bytes) hvalid hret
    | false =>
      simp only [completedLines] at hvalid hret ⊢
      obtain ⟨cmd, hcmd⟩ := hvalid (buf ++ bytes) (List.mem_cons_self _ _)
      rw [List.filterMap_cons_some hcmd] at hret ⊢
      have hexec := hret cmd (List.mem_cons_self _ _)
      simp only [handleClientLoop, Bool.false_eq_true, if_false, hcmd, hexec]
      rw [ih [] (fun l hl => hvalid l (List.mem_cons_of_mem _ hl))
        (fun x hx => hret x (List.mem_cons_of_mem _ hx))]
      rfl

/-- When every completed line decodes and the execution of a decoded command
panics, the commands before it having returned, the loop ends with that command:
no later line is dispatched. -/
theorem handleClientLoop_first_panic {Conn E : Type}
    (unmarshal : List UInt8 → Option ClientCommand) (exec : ClientCommand → Conn → Run E)
    (c : Conn) :
    ∀ (reads : List (List UInt8 × Bool)) (buf : List UInt8) (pre : List ClientCommand)
      (cmd : ClientCommand) (post : List ClientCommand) (p : Panic),
      (∀ l ∈ completedLines reads buf, ∃ cmd, unmarshal l = some cmd) →
      (completedLines reads buf).filterMap unmarshal = pre ++ cmd :: post →
      (∀ x ∈ pre, (exec x c).panicked = none) → (exec cmd c).panicked = some p →
      handleClientLoop unmarshal exec c reads buf =
        { dispatched := pre ++ [cmd], events := eventsOfAll exec c (pre ++ [cmd]),
          panicked := some p } := by
  intro reads
  induction reads with
  | nil =>
    intro buf pre cmd post p _ hsplit _ _
    simp [completedLines] at hsplit
  | cons r rest ih =>
    intro buf pre cmd post p hvalid hsplit hpre hpanic
    obtain ⟨bytes, isPrefix⟩ := r
    cases isPrefix with
    | true =>
      simp only [completedLines] at hvalid hsplit
      simp only [handleClientLoop, if_true]
      exact ih (buf ++ bytes) pre cmd post p hvalid hsplit hpre hpanic
    | false =>
      simp only [completedLines] at hvalid hsplit
      obtain ⟨cmd0, hcmd0⟩ := hvalid (buf ++ bytes) (List.mem_cons_self _ _)
      rw [List.filterMap_cons_some hcmd0] at hsplit
      cases pre with
      | nil =>
        simp only [List.nil_append, List.cons.injEq] at hsplit
        obtain ⟨e1, _⟩ := hsplit
        subst e1
        simp only [handleClientLoop, Bool.false_eq_true, if_false, hcmd0, hpanic]
        simp [eventsOfAll]
      | cons x pre' =>
        simp only [List.cons_append, List.cons.injEq] at hsplit
        obtain ⟨e1, e2⟩ := hsplit
        subst e1
        have hx := hpre cmd0 (List.mem_cons_self _ _)
        simp only [handleClientLoop, Bool.false_eq_true, if_false, hcmd0, hx]
        rw [ih [] pre' cmd post p (fun l hl => hvalid l (List.mem_cons_of_mem _ hl)) e2
          (fun y hy => hpre y (List.mem_cons_of_mem _ hy)) hpanic]
        rfl

/-- C6 fails on the code: for every sequence of `ReadLine` results in which each
completed line decodes to a command, `handleClient` passes the decoded lines to
`executeClientCommand` one by one and in order, but only up to the first command
whose execution panics: the run ends there and no later line is dispatched. Only
when every execution returns are the dispatched commands exactly the decodings of
all completed lines, one dispatch per line, the events being those of the
executions in order. -/
theorem handleClient_dispatch_ends_at_first_panic {Conn E : Type}
    (unmarshal : List UInt8 → Option ClientCommand) (exec : ClientCommand → Conn → Run E)
    (c : Conn) (reads : List (List UInt8 × Bool))
    (hvalid : ∀ l ∈ completedLines reads [], ∃ cmd, unmarshal l = some cmd) :
    (∀ (pre : List ClientCommand) (cmd : ClientCommand) (post : List ClientCommand) (p : Panic),
      (completedLines reads []).filterMap unmarshal = pre ++ cmd :: post →
      (∀ x ∈ pre, (exec x c).panicked = none) → (exec cmd c).panicked = some p →
      handleClient unmarshal exec c reads =
        { dispatched := pre ++ [cmd], events := eventsOfAll exec c (pre ++ [cmd]),
          panicked := some p }) ∧
    ((∀ x ∈ (completedLines reads []).filterMap unmarshal, (exec x c).panicked = none) →
      handleClient unmarshal exec c reads =
          { dispatched := (completedLines reads []).filterMap unmarshal,
            events := eventsOfAll exec c ((completedLines reads []).filterMap unmarshal),
            panicked := none } ∧
        (handleClient unmarshal exec c reads).dispatched.length =
          (completedLines reads []).length) := by
  constructor
  · intro pre cmd post p hsplit hpre hpanic
    exact handleClientLoop_first_panic unmarshal exec c reads [] pre cmd post p hvalid hsplit
      hpre hpanic
  · intro hret
    have h := handleClientLoop_all_return unmarshal exec c reads [] hvalid hret
    refine ⟨h, ?_⟩
    unfold handleClient
    rw [h]
    exact filterMap_length_of_all_decode unmarshal _ hvalid

/-- A rejected line stays in the buffer: the loop goes on with the rejected bytes
in front of whatever is read next. -/
theorem handleClientLoop_rejected_line {Conn E : Type}
    (unmarshal : List UInt8 → Option ClientCommand) (exec : ClientCommand → Conn → Run E)
    (c : Conn) (bytes buf : List UInt8) (rest : List (List UInt8 × Bool))
    (hbad : unmarshal (buf ++ bytes) = none) :
    handleClientLoop unmarshal exec c ((bytes, false) :: rest) buf =
      handleClientLoop unmarshal exec c rest (buf ++ bytes) := by
  simp [handleClientLoop, hbad]

/-- C5 fails on the code: when a complete line `bad` is rejected, the next complete
line `good`, a valid command by itself, is decoded from `bad ++ good`; when that
concatenation is not a command (as for JSON), `good` is never dispatched although
both lines were complete. -/
theorem rejected_line_is_carried_into_next_line {Conn E : Type}
    (unmarshal : List UInt8 → Option ClientCommand) (exec : ClientCommand → Conn → Run E)
    (c : Conn) (bad good : List UInt8) (cmd : ClientCommand)
    (hbad : unmarshal bad = none) (hgood : unmarshal good = some cmd)
    (hcat : unmarshal (bad ++ good) = none) :
    completedLines [(bad, false), (good, false)] [] = [bad, good] ∧
      (completedLines [(bad, false), (good, false)] []).filterMap unmarshal = [cmd] ∧
      (handleClient unmarshal exec c [(bad, false), (good, false)]).dispatched = [] ∧
      (handleClient unmarshal exec c [(bad, false), (good, false)]).panicked = none := by
  refine ⟨by simp [completedLines], by simp [completedLines, hbad, hgood], ?_, ?_⟩
  · simp [handleClient, handleClientLoop, hbad, hcat]
  · simp [handleClient, handleClientLoop, hbad, hcat]

theorem rejected_line_is_carried_into_next_line_witness :
    sampleUnmarshal (ascii "x") = none ∧ sampleUnmarshal typingLine = some typingCommand ∧
      sampleUnmarshal (ascii "x" ++ typingLine) = none ∧
      completedLines [(ascii "x", false), (typingLine, false)] [] = [ascii "x", typingLine] ∧
      (completedLines [(ascii "x", false), (typingLine, false)] []).filterMap sampleUnmarshal =
        [typingCommand] ∧
      (handleClient sampleUnmarshal
        (executeClientCommand (fun _ => "") (Upstream.serving ⟨"f", some 0, some "p"⟩ [])) "A"
        [(ascii "x", false), (typingLine, false)]).dispatched = [] ∧
      (handleClient sampleUnmarshal
        (executeClientCommand (fun _ => "") (Upstream.serving ⟨"f", some 0, some "p"⟩ [])) "A"
        [(ascii "x", false), (typingLine, false)]).panicked = none :=
  ⟨by decide, by decide, by decide,
    rejected_line_is_carried_into_next_line sampleUnmarshal
      (executeClientCommand (fun _ => "") (Upstream.serving ⟨"f", some 0, some "p"⟩ [])) "A"
      (ascii "x") typingLine typingCommand (by decide) (by decide) (by decide)⟩

theorem handleClient_dispatch_ends_at_first_panic_witness :
    (completedLines [(getFileLine, false), (typingLine, false)] []).filterMap sampleUnmarshalBoth =
        [getFileCommand, typingCommand] ∧
      handleClient sampleUnmarshalBoth
          (executeClientCommand (fun _ => "") (Upstream.serving ⟨"f", some 3, none⟩ [])) "A"
          [(getFileLine, false), (typingLine, false)] =
        { dispatched := [] ++ [getFileCommand],
          events := eventsOfAll
            (executeClientCommand (fun _ => "") (Upstream.serving ⟨"f", some 3, none⟩ [])) "A"
            ([] ++ [getFileCommand]),
          panicked := some Panic.nilDereference } ∧
      eventsOfAll (executeClientCommand (fun _ => "") (Upstream.serving ⟨"f", some 3, none⟩ [])) "A"
        ([] ++ [getFileCommand]) = [Event.GetFile ⟨"f"⟩ "A" 7] := by
  have hlines : completedLines [(getFileLine, false), (typingLine, false)] [] =
      [getFileLine, typingLine] := by decide
  have hparse : (completedLines [(getFileLine, false), (typingLine, false)] []).filterMap
      sampleUnmarshalBoth = [getFileCommand, typingCommand] := by decide
  have hall := handleClient_dispatch_ends_at_first_panic sampleUnmarshalBoth
    (executeClientCommand (fun _ => "") (Upstream.serving ⟨"f", some 3, none⟩ [])) "A"
    [(getFileLine, false), (typingLine, false)]
    (by
      intro l hl
      rw [hlines] at hl
      simp only [List.mem_cons, List.mem_singleton, List.not_mem_nil, or_false] at hl
      rcases hl with e | e
      · subst e; exact ⟨getFileCommand, by decide⟩
      · subst e; exact ⟨typingCommand, by decide⟩)
  exact ⟨hparse,
    hall.1 [] getFileCommand [typingCommand] Panic.nilDereference hparse
      (by intro x hx; cases hx) (by decide),
    by decide⟩

/-! ## Properties of the connection list and of broadcast -/

/-- With no failing write the loop of `broadcast` writes to the cells it ranges
over, once each and in order, and leaves the connection list alone. -/
theorem broadcastLoop_no_failure {Conn : Type} [DecidableEq Conn] (fails : Conn → Bool)
    (cl : Clients Conn) (hok : ∀ c ∈ cl.arr, fails c = false) :
    ∀ (todo i : Nat), i + todo ≤ cl.arr.length →
      broadcastLoop fails todo i cl = { written := (cl.arr.drop i).take todo, result := .ok cl } := by
  intro todo
  induction todo with
  | zero =>
    intro i _
    simp [broadcastLoop]
  | succ k ih =>
    intro i hi
    have hlt : i < cl.arr.length := by omega
    have hmem : cl.arr[i] ∈ cl.arr := List.getElem_mem hlt
    unfold broadcastLoop
    rw [List.getElem?_eq_getElem hlt]
    simp only [hok _ hmem, Bool.false_eq_true, if_false]
    rw [ih (i + 1) (by omega), List.drop_eq_getElem_cons hlt, List.take_succ_cons]

/-- When no write fails, `broadcast` writes to every connection of the list exactly
once, in order, and the list is unchanged. -/
theorem broadcast_no_failure {Conn : Type} [DecidableEq Conn] (fails : Conn → Bool)
    (l : List Conn) (hok : ∀ c ∈ l, fails c = false) :
    broadcast fails (Clients.ofList l) = { written := l, result := .ok (Clients.ofList l) } := by
  unfold broadcast
  rw [broadcastLoop_no_failure fails (Clients.ofList l) hok (Clients.ofList l).len 0
    (by simp [Clients.ofList])]
  simp [Clients.ofList]

/-- C7 fails on the code: with connections A, B, C, D and a failing write to B, the
broadcast writes to A, B, D, D: the connection C that followed the evicted one is
skipped and D is written twice. The eviction shifts the backing array under the
running `range` loop. -/
theorem broadcast_skips_connection_after_evicted :
    List.Nodup ["A", "B", "C", "D"] ∧
      (broadcast (fun c => decide (c = "B")) (Clients.ofList ["A", "B", "C", "D"])).written =
        ["A", "B", "D", "D"] ∧
      (broadcast (fun c => decide (c = "B")) (Clients.ofList ["A", "B", "C", "D"])).written.count "C" = 0 ∧
      (broadcast (fun c => decide (c = "B")) (Clients.ofList ["A", "B", "C", "D"])).written.count "D" = 2 := by
  decide

/-- C8 fails on the code: with connections A, B, C and failing writes to A and B,
the broadcast evicts A, never writes to B, and returns with the connection list
B, C: a connection whose write fails is still in the set. -/
theorem broadcast_keeps_failing_connection :
    List.Nodup ["A", "B", "C"] ∧
      (broadcast (fun c => decide (c = "A" ∨ c = "B")) (Clients.ofList ["A", "B", "C"])).written =
        ["A", "C", "C"] ∧
      ((broadcast (fun c => decide (c = "A" ∨ c = "B")) (Clients.ofList ["A", "B", "C"])).result.map
        Clients.toList) = .ok ["B", "C"] := by
  decide

/-! ## Properties of the dispatcher and of the file-fetch adapter -/

/-- Evaluation of the dispatcher on two commands that lack a required field: a
`sendText` command without `TextMessageData`, and a `getFile` command with its
`FileRequestData` but without a callback identifier, make `executeClientCommand`
panic on a nil dereference instead of returning. -/
theorem missing_payload_aborts_dispatch :
    executeClientCommand (fun _ => "") (Upstream.serving ⟨"f", some 0, some "p"⟩ [])
        (bareCommand CmdSendTextMessage) "A" =
        { events := [], panicked := some Panic.nilDereference } ∧
      executeClientCommand (fun _ => "") (Upstream.serving ⟨"f", some 0, some "p"⟩ [])
        { bareCommand CmdGetFile with FileRequestData := some ⟨"f"⟩ } "A" =
        { events := [], panicked := some Panic.nilDereference } := by
  decide

/-- C9 fails on the code: for every command whose tag is `sendText`, `getFile`,
`sendPhoto`, `forwardMessage` or `sendChatAction` and whose required payload is nil
(for `getFile` the file request or the callback identifier), `executeClientCommand`
dereferences the nil pointer without a check: it invokes no adapter operation and
writes no update, but instead of returning normally it panics, and nothing recovers
the panic. Only for the tag `answerInlineQuery`, which the switch has no case for,
does it invoke nothing, write nothing and return normally. -/
theorem missing_payload_panics_without_effect {Conn : Type} (encode : List UInt8 → String)
    (up : Upstream) (action : ClientCommand) (client : Conn) :
    (requiredPayloadMissing action = true →
      executeClientCommand encode up action client =
        { events := [], panicked := some Panic.nilDereference }) ∧
    (action.Type_ = CmdAnswerInlineQuery →
      executeClientCommand encode up action client = { events := [], panicked := none }) := by
  constructor
  · intro h
    obtain ⟨ty, txt, photo, fwd, act, inl, file, cb⟩ := action
    unfold requiredPayloadMissing at h
    simp only [Bool.or_eq_true, Bool.and_eq_true, decide_eq_true_eq, Option.isNone_iff_eq_none] at h
    unfold executeClientCommand
    simp only
    rcases h with (((h | h) | h) | h) | h
    · rw [if_pos h.1, h.2]
    · have h1 : ¬ ty = CmdSendTextMessage := by rw [h.1]; decide
      rw [if_neg h1, if_pos h.1]
      rcases h.2 with h2 | h2
      · rw [h2]
      · rw [h2]
        cases file <;> rfl
    · have h1 : ¬ ty = CmdSendTextMessage := by rw [h.1]; decide
      have h2 : ¬ ty = CmdGetFile := by rw [h.1]; decide
      rw [if_neg h1, if_neg h2, if_pos h.1, h.2]
    · have h1 : ¬ ty = CmdSendTextMessage := by rw [h.1]; decide
      have h2 : ¬ ty = CmdGetFile := by rw [h.1]; decide
      have h3 : ¬ ty = CmdSendPhoto := by rw [h.1]; decide
      rw [if_neg h1, if_neg h2, if_neg h3, if_pos h.1, h.2]
    · have h1 : ¬ ty = CmdSendTextMessage := by rw [h.1]; decide
      have h2 : ¬ ty = CmdGetFile := by rw [h.1]; decide
      have h3 : ¬ ty = CmdSendPhoto := by rw [h.1]; decide
      have h4 : ¬ ty = CmdForwardMessage := by rw [h.1]; decide
      rw [if_neg h1, if_neg h2, if_neg h3, if_neg h4, if_pos h.1, h.2]
  · intro h
    unfold executeClientCommand
    have h1 : ¬ action.Type_ = CmdSendTextMessage := by rw [h]; decide
    have h2 : ¬ action.Type_ = CmdGetFile := by rw [h]; decide
    have h3 : ¬ action.Type_ = CmdSendPhoto := by rw [h]; decide
    have h4 : ¬ action.Type_ = CmdForwardMessage := by rw [h]; decide
    have h5 : ¬ action.Type_ = CmdSendChatAction := by rw [h]; decide
    rw [if_neg h1, if_neg h2, if_neg h3, if_neg h4, if_neg h5]

theorem missing_payload_panics_without_effect_witness :
    requiredPayloadMissing (bareCommand CmdSendTextMessage) = true ∧
      executeClientCommand (fun _ => "") (Upstream.serving ⟨"f", some 0, some "p"⟩ [])
        (bareCommand CmdSendTextMessage) "A" =
        { events := [], panicked := some Panic.nilDereference } :=
  ⟨by decide,
    (missing_payload_panics_without_effect (fun _ => "")
      (Upstream.serving ⟨"f", some 0, some "p"⟩ []) (bareCommand CmdSendTextMessage) "A").1
      (by decide)⟩

/-- C10 fails on the code: when the upstream answers the `getFile` request with a
result that lacks the path, or serves the file for a result that lacks the size,
`Telegram.GetFile` dereferences a nil pointer and panics; no update at all is
written to the requesting connection. -/
theorem GetFile_panics_on_result_without_path_or_size {Conn : Type}
    (encode : List UInt8 → String) (data : FileRequestData) (client : Conn) (callback : Int)
    (size : Option Int) (path : String) (bytes : List UInt8) :
    Telegram.GetFile encode (Upstream.serving ⟨data.FileID, size, none⟩ bytes) data client callback =
        { events := [], panicked := some Panic.nilDereference } ∧
      Telegram.GetFile encode (Upstream.serving ⟨data.FileID, none, some path⟩ bytes) data client callback =
        { events := [], panicked := some Panic.nilDereference } := by
  constructor <;> simp [Telegram.GetFile, Upstream.serving]

/-- Apart from a result without path or size, every outcome of the upstream steps
makes `Telegram.GetFile` return after exactly one write to the requesting
connection, of an update that carries the callback identifier: on success the
`file` update with only `Bytes` set, to the encoding of the downloaded bytes,
otherwise an `error` update with only `Error` set. -/
theorem GetFile_writes_one_update {Conn : Type} (encode : List UInt8 → String) (up : Upstream)
    (data : FileRequestData) (client : Conn) (callback : Int)
    (hfields : ∀ result, up.decoded = some (some result) →
      result.Path.isSome = true ∧ result.Size.isSome = true) :
    ∃ u, Telegram.GetFile encode up data client callback =
        { events := [.write client u], panicked := none } ∧
      u.Callback = some callback ∧ u.Data = none ∧
      ((u.Type_ = BFile ∧ u.Error = none ∧ ∃ bytes, up.body = some bytes ∧ u.Bytes = some (encode bytes)) ∨
        (u.Type_ = BError ∧ u.Bytes = none ∧ u.Error.isSome = true)) := by
  obtain ⟨postOk, decoded, getOk, body, marshalOk⟩ := up
  unfold Telegram.GetFile
  simp only at hfields ⊢
  cases postOk with
  | false => exact ⟨_, rfl, rfl, rfl, Or.inr ⟨rfl, rfl, rfl⟩⟩
  | true =>
    cases decoded with
    | none => exact ⟨_, rfl, rfl, rfl, Or.inr ⟨rfl, rfl, rfl⟩⟩
    | some r =>
      cases r with
      | none => exact ⟨_, rfl, rfl, rfl, Or.inr ⟨rfl, rfl, rfl⟩⟩
      | some result =>
        obtain ⟨hp, hs⟩ := hfields result rfl
        obtain ⟨fid, size, path⟩ := result
        cases path with
        | none => cases hp
        | some pth =>
          cases size with
          | none => cases hs
          | some sz =>
            cases getOk with
            | false => exact ⟨_, rfl, rfl, rfl, Or.inr ⟨rfl, rfl, rfl⟩⟩
            | true =>
              cases body with
              | none => exact ⟨_, rfl, rfl, rfl, Or.inr ⟨rfl, rfl, rfl⟩⟩
              | some bytes =>
                cases marshalOk with
                | false => exact ⟨_, rfl, rfl, rfl, Or.inr ⟨rfl, rfl, rfl⟩⟩
                | true => exact ⟨_, rfl, rfl, rfl, Or.inl ⟨rfl, rfl, bytes, rfl, rfl⟩⟩

/-! ## Further properties of the registry: reuse of ids and tail truncation -/

/-- Under the invariant the cursor is the only id that is not live while every
smaller id is. -/
theorem Inv.cursor_unique {H : Type} {b : Broker H} {m : Ledger H} (hinv : Inv b m) (x : Int)
    (h0 : 0 ≤ x) (hx : m.handler x = none)
    (hbelow : ∀ j : Int, 0 ≤ j → j < x → (m.handler j).isSome = true) : x = b.cbFree := by
  obtain ⟨hc, hcb⟩ := hinv.cursor_least
  have hf0 := hinv.free_nonneg
  rcases lt_trichotomy x b.cbFree with hlt | heq | hgt
  · have := hcb x h0 hlt
    rw [hx] at this
    cases this
  · exact heq
  · have := hbelow b.cbFree hf0 hgt
    rw [hc] at this
    cases this

/-- After the release of a live id `k` the next registration returns the smaller of
`k` and the cursor before the release. -/
theorem register_after_release {H : Type} (b : Broker H) (m : Ledger H) (k : Int) (h fn : H)
    (hinv : Inv b m) (hlive : m.handler k = some h) :
    ∃ b1 b2, RemoveCallback b k = .ok b1 ∧ Inv b1 (m.release k) ∧
      RegisterCallback b1 (some fn) = .ok (b2, min b.cbFree k) ∧
      b1.Callbacks.length ≤ b2.Callbacks.length := by
  obtain ⟨b1, h1, _, h2⟩ := RemoveCallback_spec b m k h hinv hlive
  obtain ⟨b2, h3, _, _, h4⟩ := RegisterCallback_spec b1 (m.release k) fn h2
  obtain ⟨hc, hcb⟩ := hinv.cursor_least
  have hk0 : 0 ≤ k := by
    rw [hinv.ledger] at hlive
    obtain ⟨n, hn, _, _⟩ := slot_eq_some _ _ _ hlive
    omega
  have hkc : k ≠ b.cbFree := by
    intro e
    rw [e, hc] at hlive
    cases hlive
  have hmin : min b.cbFree k = b1.cbFree := by
    apply h2.cursor_unique
    · have := hinv.free_nonneg
      omega
    · rw [Ledger.handler_release]
      by_cases e : min b.cbFree k = k
      · rw [if_pos e]
      · rw [if_neg e]
        have : min b.cbFree k = b.cbFree := by omega
        rw [this, hc]
    · intro j hj0 hj
      rw [Ledger.handler_release, if_neg (by omega)]
      exact hcb j hj0 (by omega)
  rw [hmin]
  exact ⟨b1, b2, h1, h2, h3, h4⟩

/-- C12, as stated, fails: with ids 1 and 2 live and id 0 free, id 1 is live and
smaller than every other live id, yet after `RemoveCallback(1)` the next
`RegisterCallback` returns 0, not 1. -/
theorem lowest_live_id_is_not_reused_when_lower_id_free :
    replay [Call.register "a", .register "b", .register "c", .remove 0] (Broker.empty, []) =
        .done (⟨[none, some "b", some "c"], 0⟩, [(2, "c"), (1, "b")]) ∧
      Ledger.handler [((2 : Int), "c"), (1, "b")] 1 = some "b" ∧
      (∀ j : Int, (Ledger.handler [((2 : Int), "c"), (1, "b")] j).isSome = true → j ≠ 1 → 1 < j) ∧
      RemoveCallback (⟨[none, some "b", some "c"], 0⟩ : Broker String) 1 =
        .ok ⟨[none, none, some "c"], 0⟩ ∧
      RegisterCallback (⟨[none, none, some "c"], 0⟩ : Broker String) (some "z") =
        .ok (⟨[some "z", none, some "c"], 1⟩, 0) := by
  refine ⟨by decide, by decide, ?_, by decide, by decide⟩
  intro j hj hne
  simp only [Ledger.handler] at hj
  by_cases h2 : (2 : Int) = j
  · omega
  · by_cases h1 : (1 : Int) = j
    · omega
    · rw [if_neg h2, if_neg h1] at hj
      cases hj

/-- C12, amended: in every reachable registry state, if `k` is live then after
`RemoveCallback(k)` the next `RegisterCallback` returns the smallest id that is then
free, the smaller of `k` and the free cursor before the release; it returns `k` when
every id below `k` is live, and it returns 0 when `k` is smaller than every other
live id. -/
theorem release_then_register_returns_least_free_id {H : Type} (calls : List (Call H))
    (b : Broker H) (m : Ledger H) (k : Int) (h fn : H)
    (hreach : replay calls (Broker.empty, []) = .done (b, m))
    (hlive : m.handler k = some h) :
    ∃ b1 b2 id, RemoveCallback b k = .ok b1 ∧ RegisterCallback b1 (some fn) = .ok (b2, id) ∧
      id = min b.cbFree k ∧
      (m.release k).handler id = none ∧
      (∀ j : Int, 0 ≤ j → j < id → ((m.release k).handler j).isSome = true) ∧
      ((∀ j : Int, 0 ≤ j → j < k → (m.handler j).isSome = true) → id = k) ∧
      ((∀ j : Int, (m.handler j).isSome = true → j ≠ k → k < j) → id = 0) := by
  have hinv : Inv b m := Reachable.inv ⟨calls, hreach⟩
  obtain ⟨b1, b2, h1, h2, h3, _⟩ := register_after_release b m k h fn hinv hlive
  obtain ⟨hc, hcb⟩ := hinv.cursor_least
  have hf0 := hinv.free_nonneg
  have hk0 : 0 ≤ k := by
    rw [hinv.ledger] at hlive
    obtain ⟨n, hn, _, _⟩ := slot_eq_some _ _ _ hlive
    omega
  have hid : b1.cbFree = min b.cbFree k := by
    obtain ⟨b3, h5, _⟩ := RegisterCallback_spec b1 (m.release k) fn h2
    rw [h3] at h5
    injection h5 with h6
    injection h6 with _ h7
    exact h7.symm
  refine ⟨b1, b2, min b.cbFree k, h1, h3, rfl, ?_, ?_, ?_, ?_⟩
  · rw [← hid]; exact h2.cursor_least.1
  · rw [← hid]; exact h2.cursor_least.2
  · intro hall
    have : ¬ b.cbFree < k := by
      intro hlt
      have := hall b.cbFree hf0 hlt
      rw [hc] at this
      cases this
    omega
  · intro hsmall
    by_contra hne
    have hpos : 0 < min b.cbFree k := by omega
    have h0live := hcb 0 (le_refl _) (by omega)
    have := hsmall 0 h0live (by omega)
    omega

theorem release_then_register_returns_least_free_id_witness :
    ∃ b1 b2 id, RemoveCallback (⟨[none, some "b", some "c"], 0⟩ : Broker String) 1 = .ok b1 ∧
      RegisterCallback b1 (some "z") = .ok (b2, id) ∧
      id = min (⟨[none, some "b", some "c"], 0⟩ : Broker String).cbFree 1 ∧
      (Ledger.release [((2 : Int), "c"), (1, "b")] 1).handler id = none ∧
      (∀ j : Int, 0 ≤ j → j < id →
        ((Ledger.release [((2 : Int), "c"), (1, "b")] 1).handler j).isSome = true) ∧
      ((∀ j : Int, 0 ≤ j → j < 1 →
        (Ledger.handler [((2 : Int), "c"), (1, "b")] j).isSome = true) → id = 1) ∧
      ((∀ j : Int, (Ledger.handler [((2 : Int), "c"), (1, "b")] j).isSome = true → j ≠ 1 → 1 < j) →
        id = 0) :=
  release_then_register_returns_least_free_id
    [Call.register "a", .register "b", .register "c", .remove 0]
    ⟨[none, some "b", some "c"], 0⟩ [(2, "c"), (1, "b")] 1 "b" "z" (by decide) (by decide)

/-- C13, as stated, fails: with id 0 released and id 1 the only live id,
`RemoveCallback(1)` leaves the slot array empty, but the following `RegisterCallback`
returns 0, not 1. -/
theorem only_live_id_is_not_returned_again :
    replay [Call.register "a", .register "b", .remove 0] (Broker.empty, []) =
        .done (⟨[none, some "b"], 0⟩, [(1, "b")]) ∧
      RemoveCallback (⟨[none, some "b"], 0⟩ : Broker String) 1 = .ok ⟨[], 0⟩ ∧
      RegisterCallback (⟨[], 0⟩ : Broker String) (some "z") = .ok (⟨[some "z"], 1⟩, 0) ∧
      (0 : Int) ≠ 1 := by
  decide

/-- C13, amended: in every reachable registry state in which exactly one id `k` is
live, `RemoveCallback(k)` leaves the slot array with length zero and the cursor at 0,
and the following `RegisterCallback` returns id 0 with the array back at length 1:
the id `k` again when `k = 0`, a smaller id otherwise, never a larger one. -/
theorem release_of_only_live_id_resets_registry {H : Type} (calls : List (Call H))
    (b : Broker H) (m : Ledger H) (k : Int) (h fn : H)
    (hreach : replay calls (Broker.empty, []) = .done (b, m))
    (hlive : m.handler k = some h) (honly : ∀ j : Int, j ≠ k → m.handler j = none) :
    ∃ b1 b2, RemoveCallback b k = .ok b1 ∧ b1.Callbacks = [] ∧ b1.cbFree = 0 ∧
      RegisterCallback b1 (some fn) = .ok (b2, 0) ∧ b2.Callbacks = [some fn] ∧
      (0 : Int) ≤ k ∧ (k = 0 → RegisterCallback b1 (some fn) = .ok (b2, k)) := by
  have hinv : Inv b m := Reachable.inv ⟨calls, hreach⟩
  obtain ⟨b1, h1, _, h2⟩ := RemoveCallback_spec b m k h hinv hlive
  have hk0 : 0 ≤ k := by
    rw [hinv.ledger] at hlive
    obtain ⟨n, hn, _, _⟩ := slot_eq_some _ _ _ hlive
    omega
  have hnone : ∀ j : Int, (m.release k).handler j = none := by
    intro j
    rw [Ledger.handler_release]
    by_cases e : j = k
    · rw [if_pos e]
    · rw [if_neg e]; exact honly j e
  have hempty : b1.Callbacks = [] := by
    cases hcb : b1.Callbacks with
    | nil => rfl
    | cons x xs =>
      exfalso
      obtain ⟨g, hg⟩ := h2.last_live xs.length (by rw [hcb]; rfl)
      have hs : slot b1 (xs.length : Int) = some g := by rw [slot_natCast, hg]; rfl
      rw [← h2.ledger, hnone] at hs
      cases hs
  have hfree : b1.cbFree = 0 := by
    have h3 := h2.free_nonneg
    have h4 := h2.free_le
    rw [hempty] at h4
    simp only [List.length_nil, Nat.cast_zero] at h4
    omega
  obtain ⟨cbs, free⟩ := b1
  simp only at hempty hfree
  subst hempty
  subst hfree
  refine ⟨_, ⟨[some fn], 1⟩, h1, rfl, rfl, rfl, rfl, hk0, ?_⟩
  intro e
  rw [e]
  rfl

theorem release_of_only_live_id_resets_registry_witness :
    ∃ b1 b2, RemoveCallback (⟨[some "a"], 1⟩ : Broker String) 0 = .ok b1 ∧ b1.Callbacks = [] ∧
      b1.cbFree = 0 ∧ RegisterCallback b1 (some "z") = .ok (b2, 0) ∧ b2.Callbacks = [some "z"] ∧
      (0 : Int) ≤ 0 ∧ ((0 : Int) = 0 → RegisterCallback b1 (some "z") = .ok (b2, 0)) :=
  release_of_only_live_id_resets_registry [Call.register "a"] ⟨[some "a"], 1⟩ [(0, "a")] 0 "a" "z"
    (by decide) (by decide)
    (by
      intro j hj
      simp only [Ledger.handler]
      rw [if_neg (fun e => hj e.symm)])

/-- C14: in every reachable registry state and for every live id, after
`RemoveCallback(id)` the slot array is empty, with no id live any more, or its last
slot is live and its length is the largest remaining live id plus one; the cursor
does not exceed the new length; and `RegisterCallback` returns with an array that
is not shorter than before. -/
theorem release_truncates_to_last_live_slot {H : Type} (calls : List (Call H)) (b : Broker H)
    (m : Ledger H) (id : Int) (h : H)
    (hreach : replay calls (Broker.empty, []) = .done (b, m))
    (hlive : m.handler id = some h) :
    ∃ b1, RemoveCallback b id = .ok b1 ∧
      ((b1.Callbacks.length = 0 ∧ ∀ j : Int, (m.release id).handler j = none) ∨
        (∃ n : Nat, b1.Callbacks.length = n + 1 ∧ LiveAt b1.Callbacks n ∧
          ((m.release id).handler (n : Int)).isSome = true ∧
          ∀ j : Int, ((m.release id).handler j).isSome = true → j ≤ (n : Int))) ∧
      b1.cbFree ≤ (b1.Callbacks.length : Int) ∧
      ∀ fn : H, ∃ b2 id2, RegisterCallback b (some fn) = .ok (b2, id2) ∧
        b.Callbacks.length ≤ b2.Callbacks.length ∧
        ∃ b3 id3, RegisterCallback b1 (some fn) = .ok (b3, id3) ∧
          b1.Callbacks.length ≤ b3.Callbacks.length := by
  have hinv : Inv b m := Reachable.inv ⟨calls, hreach⟩
  obtain ⟨b1, h1, _, h2⟩ := RemoveCallback_spec b m id h hinv hlive
  have hin : ∀ j : Int, ((m.release id).handler j).isSome = true →
      j < (b1.Callbacks.length : Int) := by
    intro j hj
    obtain ⟨g, hg⟩ := Option.isSome_iff_exists.mp hj
    rw [h2.ledger] at hg
    obtain ⟨n, hn, _, hlt⟩ := slot_eq_some _ _ _ hg
    omega
  refine ⟨b1, h1, ?_, h2.free_le, ?_⟩
  · cases hlen : b1.Callbacks.length with
    | zero =>
      left
      refine ⟨rfl, ?_⟩
      intro j
      cases hj : (m.release id).handler j with
      | none => rfl
      | some g =>
        have := hin j (by rw [hj]; rfl)
        have h0 : 0 ≤ j := by
          rw [h2.ledger] at hj
          obtain ⟨n, hn, _, _⟩ := slot_eq_some _ _ _ hj
          omega
        omega
    | succ n =>
      right
      obtain ⟨g, hg⟩ := h2.last_live n hlen
      refine ⟨n, rfl, ⟨g, hg⟩, ?_, ?_⟩
      · rw [h2.ledger, slot_natCast, hg]; rfl
      · intro j hj
        have := hin j hj
        omega
  · intro fn
    obtain ⟨b2, h3, _, _, h4⟩ := RegisterCallback_spec b m fn hinv
    obtain ⟨b3, h5, _, _, h6⟩ := RegisterCallback_spec b1 (m.release id) fn h2
    exact ⟨b2, _, h3, h4, b3, _, h5, h6⟩

theorem release_truncates_to_last_live_slot_witness :
    ∃ b1, RemoveCallback (⟨[some "a", none, some "c"], 1⟩ : Broker String) 2 = .ok b1 ∧
      ((b1.Callbacks.length = 0 ∧
          ∀ j : Int, (Ledger.release [((2 : Int), "c"), (0, "a")] 2).handler j = none) ∨
        (∃ n : Nat, b1.Callbacks.length = n + 1 ∧ LiveAt b1.Callbacks n ∧
          ((Ledger.release [((2 : Int), "c"), (0, "a")] 2).handler (n : Int)).isSome = true ∧
          ∀ j : Int, ((Ledger.release [((2 : Int), "c"), (0, "a")] 2).handler j).isSome = true →
            j ≤ (n : Int))) ∧
      b1.cbFree ≤ (b1.Callbacks.length : Int) ∧
      ∀ fn : String, ∃ b2 id2,
        RegisterCallback (⟨[some "a", none, some "c"], 1⟩ : Broker String) (some fn) = .ok (b2, id2) ∧
        ([some "a", none, some "c"] : List (Option String)).length ≤ b2.Callbacks.length ∧
        ∃ b3 id3, RegisterCallback b1 (some fn) = .ok (b3, id3) ∧
          b1.Callbacks.length ≤ b3.Callbacks.length :=
  release_truncates_to_last_live_slot [Call.register "a", .register "b", .register "c", .remove 1]
    ⟨[some "a", none, some "c"], 1⟩ [(2, "c"), (0, "a")] 2 "c" (by decide) (by decide)

/-- Whenever `RegisterCallback` returns, from any registry state and with any
handler, the slot array is not shorter than before. -/
theorem RegisterCallback_length_le {H : Type} (b b' : Broker H) (fn : Option H) (id : Int)
    (hret : RegisterCallback b fn = .ok (b', id)) :
    b.Callbacks.length ≤ b'.Callbacks.length := by
  unfold RegisterCallback at hret
  simp only at hret
  by_cases hfull : b.cbFree = (b.Callbacks.length : Int)
  · rw [if_pos hfull] at hret
    injection hret with e
    injection e with e1 _
    rw [← e1]
    simp
  · rw [if_neg hfull] at hret
    unfold store at hret
    by_cases hr : 0 ≤ b.cbFree ∧ b.cbFree < (b.Callbacks.length : Int)
    · rw [if_pos hr] at hret
      simp only at hret
      cases hscan : scanFree (b.Callbacks.set b.cbFree.toNat fn) b.Callbacks.length
          (b.Callbacks.length - (b.cbFree.toNat + 1)) (b.cbFree.toNat + 1) with
      | error p =>
        rw [hscan] at hret
        cases hret
      | ok next =>
        rw [hscan] at hret
        injection hret with e
        injection e with e1 _
        rw [← e1]
        simp
    · rw [if_neg hr] at hret
      cases hret

/-! ## Further properties of the dispatcher, and the webhook -/

/-- C11: for every command with tag `sendChatAction` and a populated
`ChatActionData`, `executeClientCommand` returns after invoking the adapter's
`SendChatAction` exactly once, with exactly that payload and nothing else (the
operation takes no callback identifier); it invokes no other adapter operation and
no update is written to any connection. -/
theorem sendChatAction_is_fire_and_forget {Conn : Type} (encode : List UInt8 → String)
    (up : Upstream) (action : ClientCommand) (client : Conn) (data : ClientChatActionData)
    (htag : action.Type_ = CmdSendChatAction) (hdata : action.ChatActionData = some data) :
    executeClientCommand encode up action client =
        { events := [.SendChatAction data], panicked := none } ∧
      ∀ (c : Conn) (u : BrokerUpdate),
        Event.write c u ∉ (executeClientCommand encode up action client).events := by
  have hrun : executeClientCommand encode up action client =
      { events := [.SendChatAction data], panicked := none } := by
    unfold executeClientCommand
    have h1 : ¬ action.Type_ = CmdSendTextMessage := by rw [htag]; decide
    have h2 : ¬ action.Type_ = CmdGetFile := by rw [htag]; decide
    have h3 : ¬ action.Type_ = CmdSendPhoto := by rw [htag]; decide
    have h4 : ¬ action.Type_ = CmdForwardMessage := by rw [htag]; decide
    rw [if_neg h1, if_neg h2, if_neg h3, if_neg h4, if_pos htag, hdata]
  refine ⟨hrun, ?_⟩
  intro c u hmem
  rw [hrun] at hmem
  simp at hmem

theorem sendChatAction_is_fire_and_forget_witness :
    sampleUnmarshal typingLine = some typingCommand ∧
      executeClientCommand (fun _ => "") (Upstream.serving ⟨"f", some 0, some "p"⟩ [])
          typingCommand "A" =
        { events := [.SendChatAction { ChatID := 42, Action := "typing" }], panicked := none } ∧
      ∀ (c : String) (u : BrokerUpdate),
        Event.write c u ∉ (executeClientCommand (fun _ => "")
          (Upstream.serving ⟨"f", some 0, some "p"⟩ []) typingCommand "A").events :=
  ⟨by decide,
    sendChatAction_is_fire_and_forget (fun _ => "") (Upstream.serving ⟨"f", some 0, some "p"⟩ [])
      typingCommand "A" { ChatID := 42, Action := "typing" } (by decide) (by decide)⟩

/-- C15 fails on the code: for every inbound event that decodes, the update that
`webhook` encodes and passes to `broadcast` carries the event as `Data`, has no
`Callback`, no `Bytes` and no `Error`, but its `Type` is the empty string, not
`"message"`: the composite literal never sets the field. -/
theorem webhook_update_has_empty_type (update : APIUpdate) :
    webhook (some update) true =
        some { Type_ := "", Callback := none, Error := none, Data := some update, Bytes := none } ∧
      ∀ u, webhook (some update) true = some u → u.Type_ ≠ BMessage := by
  refine ⟨rfl, ?_⟩
  intro u hu
  have : u = { Type_ := "", Callback := none, Error := none, Data := some update, Bytes := none } := by
    have h2 : webhook (some update) true =
        some { Type_ := "", Callback := none, Error := none, Data := some update, Bytes := none } := rfl
    rw [h2] at hu
    injection hu with e
    exact e.symm
  rw [this]
  show ("" : String) ≠ BMessage
  decide

/-- C16 fails on the code: for every command with tag `answerInlineQuery` and a
populated `InlineQueryResults`, `executeClientCommand` returns without any event:
the switch has no case for the tag, so the adapter's `AnswerInlineQuery` is not
invoked. -/
theorem answerInlineQuery_is_never_dispatched {Conn : Type} (encode : List UInt8 → String)
    (up : Upstream) (action : ClientCommand) (client : Conn) (data : InlineQueryResponse)
    (htag : action.Type_ = CmdAnswerInlineQuery) (hdata : action.InlineQueryResults = some data) :
    action.InlineQueryResults.isSome = true ∧
      executeClientCommand encode up action client = { events := [], panicked := none } ∧
      Event.AnswerInlineQuery data ∉ (executeClientCommand encode up action client).events := by
  have hrun : executeClientCommand encode up action client = { events := [], panicked := none } := by
    unfold executeClientCommand
    have h1 : ¬ action.Type_ = CmdSendTextMessage := by rw [htag]; decide
    have h2 : ¬ action.Type_ = CmdGetFile := by rw [htag]; decide
    have h3 : ¬ action.Type_ = CmdSendPhoto := by rw [htag]; decide
    have h4 : ¬ action.Type_ = CmdForwardMessage := by rw [htag]; decide
    have h5 : ¬ action.Type_ = CmdSendChatAction := by rw [htag]; decide
    rw [if_neg h1, if_neg h2, if_neg h3, if_neg h4, if_neg h5]
  refine ⟨by rw [hdata]; rfl, hrun, ?_⟩
  rw [hrun]
  simp

theorem answerInlineQuery_is_never_dispatched_witness :
    (fullCommand CmdAnswerInlineQuery).InlineQueryResults.isSome = true ∧
      executeClientCommand (fun _ => "") (Upstream.serving ⟨"f", some 0, some "p"⟩ [])
          (fullCommand CmdAnswerInlineQuery) "A" = { events := [], panicked := none } ∧
      Event.AnswerInlineQuery ⟨"q", [], none, false, "", "", ""⟩ ∉
        (executeClientCommand (fun _ => "") (Upstream.serving ⟨"f", some 0, some "p"⟩ [])
          (fullCommand CmdAnswerInlineQuery) "A").events :=
  answerInlineQuery_is_never_dispatched (fun _ => "") (Upstream.serving ⟨"f", some 0, some "p"⟩ [])
    (fullCommand CmdAnswerInlineQuery) "A" ⟨"q", [], none, false, "", "", ""⟩ (by decide) (by decide)

/-- Each of the five tags the switch has a case for, with its payload populated,
invokes exactly its own adapter operation, once and first. -/
theorem executeClientCommand_dispatches_populated {Conn : Type} (encode : List UInt8 → String)
    (up : Upstream) (action : ClientCommand) (client : Conn) :
    (∀ d, action.Type_ = CmdSendTextMessage → action.TextMessageData = some d →
      executeClientCommand encode up action client =
        { events := [.SendTextMessage d], panicked := none }) ∧
    (∀ d, action.Type_ = CmdSendPhoto → action.PhotoData = some d →
      executeClientCommand encode up action client =
        { events := [.SendPhoto d], panicked := none }) ∧
    (∀ d, action.Type_ = CmdForwardMessage → action.ForwardMessageData = some d →
      executeClientCommand encode up action client =
        { events := [.ForwardMessage d], panicked := none }) ∧
    (∀ d, action.Type_ = CmdSendChatAction → action.ChatActionData = some d →
      executeClientCommand encode up action client =
        { events := [.SendChatAction d], panicked := none }) ∧
    (∀ d cb, action.Type_ = CmdGetFile → action.FileRequestData = some d →
      action.Callback = some cb →
      executeClientCommand encode up action client =
        { events := .GetFile d client cb :: (Telegram.GetFile encode up d client cb).events,
          panicked := (Telegram.GetFile encode up d client cb).panicked }) := by
  refine ⟨?_, ?_, ?_, ?_, ?_⟩
  · intro d ht hd
    unfold executeClientCommand
    rw [if_pos ht, hd]
  · intro d ht hd
    unfold executeClientCommand
    have h1 : ¬ action.Type_ = CmdSendTextMessage := by rw [ht]; decide
    have h2 : ¬ action.Type_ = CmdGetFile := by rw [ht]; decide
    rw [if_neg h1, if_neg h2, if_pos ht, hd]
  · intro d ht hd
    unfold executeClientCommand
    have h1 : ¬ action.Type_ = CmdSendTextMessage := by rw [ht]; decide
    have h2 : ¬ action.Type_ = CmdGetFile := by rw [ht]; decide
    have h3 : ¬ action.Type_ = CmdSendPhoto := by rw [ht]; decide
    rw [if_neg h1, if_neg h2, if_neg h3, if_pos ht, hd]
  · intro d ht hd
    unfold executeClientCommand
    have h1 : ¬ action.Type_ = CmdSendTextMessage := by rw [ht]; decide
    have h2 : ¬ action.Type_ = CmdGetFile := by rw [ht]; decide
    have h3 : ¬ action.Type_ = CmdSendPhoto := by rw [ht]; decide
    have h4 : ¬ action.Type_ = CmdForwardMessage := by rw [ht]; decide
    rw [if_neg h1, if_neg h2, if_neg h3, if_neg h4, if_pos ht, hd]
  · intro d cb ht hd hc
    unfold executeClientCommand
    have h1 : ¬ action.Type_ = CmdSendTextMessage := by rw [ht]; decide
    rw [if_neg h1, if_pos ht, hd, hc]

/-! ## Properties of `removeCon` -/

/-- One iteration of the loop of `removeCon` on a cell that differs from `c`. -/
theorem removeConLoop_step_ne {Conn : Type} [DecidableEq Conn] (c x : Conn) (cl : Clients Conn)
    (k i : Nat) (hx : cl.arr[i]? = some x) (hne : x ≠ c) :
    removeConLoop c (k + 1) i cl = removeConLoop c k (i + 1) cl := by
  simp only [removeConLoop, hx]
  rw [if_neg (fun e => hne e.symm)]

/-- One iteration of the loop of `removeCon` on a cell that holds `c`. -/
theorem removeConLoop_step_eq {Conn : Type} [DecidableEq Conn] (c : Conn) (cl cl' : Clients Conn)
    (k i : Nat) (hx : cl.arr[i]? = some c) (hcut : cl.cut i = .ok cl') :
    removeConLoop c (k + 1) i cl = removeConLoop c k (i + 1) cl' := by
  simp only [removeConLoop, hx, hcut, if_true]

/-- The loop of `removeCon` leaves the list alone while the cells it ranges over
differ from `c`. -/
theorem removeConLoop_skip {Conn : Type} [DecidableEq Conn] (c : Conn) (cl : Clients Conn) :
    ∀ (todo i : Nat), (∀ j, i ≤ j → j < i + todo → ∃ x, cl.arr[j]? = some x ∧ x ≠ c) →
      removeConLoop c todo i cl = .ok cl := by
  intro todo
  induction todo with
  | zero =>
    intro i _
    rfl
  | succ k ih =>
    intro i h
    obtain ⟨x, hx, hne⟩ := h i (le_refl _) (by omega)
    rw [removeConLoop_step_ne c x cl k i hx hne]
    exact ih (i + 1) (fun j h1 h2 => h j (by omega) (by omega))

/-- The loop of `removeCon` passes over a run of cells that differ from `c`. -/
theorem removeConLoop_passes {Conn : Type} [DecidableEq Conn] (c : Conn) (cl : Clients Conn) :
    ∀ (p i todo : Nat), (∀ j, i ≤ j → j < i + p → ∃ x, cl.arr[j]? = some x ∧ x ≠ c) →
      removeConLoop c (p + todo) i cl = removeConLoop c todo (i + p) cl := by
  intro p
  induction p with
  | zero =>
    intro i todo _
    simp
  | succ q ih =>
    intro i todo h
    obtain ⟨x, hx, hne⟩ := h i (le_refl _) (by omega)
    have e1 : q + 1 + todo = (q + todo) + 1 := by omega
    rw [e1, removeConLoop_step_ne c x cl (q + todo) i hx hne,
      ih (i + 1) todo (fun j h1 h2 => h j (by omega) (by omega))]
    have e2 : i + 1 + q = i + (q + 1) := by omega
    rw [e2]

/-- On a connection list without duplicates `removeCon(c)` returns, never indexing
or slicing out of range, and leaves the list without `c`, every other connection
kept in place; the backing array keeps its size. -/
theorem removeCon_spec {Conn : Type} [DecidableEq Conn] (c : Conn) (cl : Clients Conn)
    (hlen : cl.len ≤ cl.arr.length) (hnd : cl.toList.Nodup) :
    ∃ cl', removeCon c cl = .ok cl' ∧
      cl'.toList = cl.toList.filter (fun x => decide (x ≠ c)) ∧
      cl'.len ≤ cl'.arr.length ∧ cl'.arr.length = cl.arr.length := by
  obtain ⟨arr, len⟩ := cl
  simp only [Clients.toList] at hlen hnd ⊢
  by_cases hmem : c ∈ arr.take len
  · obtain ⟨pre, mid, hsplit⟩ := List.append_of_mem hmem
    have hlen2 : len = pre.length + 1 + mid.length := by
      have h1 : (arr.take len).length = len := List.length_take_of_le hlen
      rw [hsplit] at h1
      simp only [List.length_append, List.length_cons] at h1
      omega
    have harr : arr = pre ++ c :: mid ++ arr.drop len := by
      rw [← hsplit, List.take_append_drop]
    rw [hsplit] at hnd
    have hcpre : c ∉ pre := by
      intro hin
      have := (List.nodup_append.mp hnd).2.2
      exact this hin (List.mem_cons_self _ _)
    have hcmid : c ∉ mid := by
      have := (List.nodup_append.mp hnd).2.1
      exact (List.nodup_cons.mp this).1
    generalize arr.drop len = post at harr
    subst harr
    subst hlen2
    -- the cells
    have hcell_pre : ∀ j, j < pre.length →
        ∃ x, (pre ++ c :: mid ++ post)[j]? = some x ∧ x ≠ c := by
      intro j hj
      refine ⟨pre[j], ?_, ?_⟩
      · rw [List.append_assoc, List.getElem?_append_left hj, List.getElem?_eq_getElem hj]
      · intro e
        exact hcpre (e ▸ List.getElem_mem hj)
    have hcell_c : (pre ++ c :: mid ++ post)[pre.length]? = some c := by
      rw [List.append_assoc, List.getElem?_append_right (le_refl _)]
      simp
    have hcut : Clients.cut ({ arr := pre ++ c :: mid ++ post, len := pre.length + 1 + mid.length } :
          Clients Conn) pre.length =
        .ok { arr := pre ++ mid ++ (pre ++ c :: mid ++ post).drop (pre.length + mid.length),
              len := pre.length + mid.length } := by
      unfold Clients.cut
      simp only
      rw [if_pos ⟨by omega, by simp⟩]
      have e1 : (pre ++ c :: mid ++ post).take pre.length = pre := by
        rw [List.append_assoc]; exact List.take_left _ _
      have e2 : (pre ++ c :: mid ++ post).drop (pre.length + 1) = mid ++ post := by
        have : pre ++ c :: mid ++ post = (pre ++ [c]) ++ (mid ++ post) := by simp
        rw [this]
        exact List.drop_left' (by simp)
      have e3 : pre.length + 1 + mid.length - (pre.length + 1) = mid.length := by omega
      have e4 : pre.length + 1 + mid.length - 1 = pre.length + mid.length := by omega
      rw [e1, e2, e3, e4, List.take_left]
    have hcell_rest : ∀ j, pre.length + 1 ≤ j → j < pre.length + 1 + mid.length →
        ∃ x, (pre ++ mid ++ (pre ++ c :: mid ++ post).drop (pre.length + mid.length))[j]? = some x ∧
          x ≠ c := by
      intro j h1 h2
      by_cases hj : j < pre.length + mid.length
      · have hjm : j - pre.length < mid.length := by omega
        refine ⟨mid[j - pre.length], ?_, ?_⟩
        · rw [List.getElem?_append_left (by simp; omega),
            List.getElem?_append_right (by omega), List.getElem?_eq_getElem hjm]
        · intro e
          exact hcmid (e ▸ List.getElem_mem hjm)
      · have hje : j = pre.length + mid.length := by omega
        have hm : mid.length - 1 < mid.length := by omega
        refine ⟨mid[mid.length - 1], ?_, ?_⟩
        · rw [List.getElem?_append_right (by simp; omega), List.getElem?_drop]
          have e5 : pre.length + mid.length + (j - (pre ++ mid).length) =
              pre.length + ((mid.length - 1) + 1) := by
            simp only [List.length_append]
            omega
          rw [e5, List.append_assoc, List.getElem?_append_right (by omega)]
          have e6 : pre.length + (mid.length - 1 + 1) - pre.length = (mid.length - 1) + 1 := by omega
          rw [e6, List.cons_append, List.getElem?_cons_succ, List.getElem?_append_left hm,
            List.getElem?_eq_getElem hm]
        · intro e
          exact hcmid (e ▸ List.getElem_mem hm)
    refine ⟨{ arr := pre ++ mid ++ (pre ++ c :: mid ++ post).drop (pre.length + mid.length),
              len := pre.length + mid.length }, ?_, ?_, ?_, ?_⟩
    · unfold removeCon
      simp only
      have e0 : pre.length + 1 + mid.length = pre.length + (mid.length + 1) := by omega
      have hstep := removeConLoop_step_eq c _ _ mid.length pre.length hcell_c hcut
      rw [e0] at hstep ⊢
      rw [removeConLoop_passes c _ pre.length 0 (mid.length + 1)
        (fun j _ h2 => hcell_pre j (by omega)), Nat.zero_add, hstep]
      exact removeConLoop_skip c _ mid.length (pre.length + 1)
        (fun j h1 h2 => hcell_rest j h1 (by omega))
    · simp only
      have e7 : (pre ++ mid ++ (pre ++ c :: mid ++ post).drop (pre.length + mid.length)).take
          (pre.length + mid.length) = pre ++ mid := List.take_left' (by simp)
      rw [e7, hsplit, List.filter_append, List.filter_cons_of_neg (by simp)]
      have f1 : pre.filter (fun x => decide (x ≠ c)) = pre :=
        List.filter_eq_self.mpr (fun a ha => by
          simp only [ne_eq, decide_not, Bool.not_eq_true', decide_eq_false_iff_not]
          intro e; exact hcpre (e ▸ ha))
      have f2 : mid.filter (fun x => decide (x ≠ c)) = mid :=
        List.filter_eq_self.mpr (fun a ha => by
          simp only [ne_eq, decide_not, Bool.not_eq_true', decide_eq_false_iff_not]
          intro e; exact hcmid (e ▸ ha))
      rw [f1, f2]
    · simp only [List.length_append, List.length_drop, List.length_cons]
      omega
    · simp only [List.length_append, List.length_drop, List.length_cons]
      omega
  · have hcell : ∀ j, j < len → ∃ x, arr[j]? = some x ∧ x ≠ c := by
      intro j hj
      have hja : j < arr.length := by omega
      refine ⟨arr[j], List.getElem?_eq_getElem hja, ?_⟩
      intro e
      apply hmem
      rw [← e]
      have : (arr.take len)[j]? = some arr[j] := by
        rw [List.getElem?_take_of_lt hj, List.getElem?_eq_getElem hja]
      exact List.getElem?_mem this
    refine ⟨{ arr := arr, len := len }, ?_, ?_, hlen, rfl⟩
    · unfold removeCon
      exact removeConLoop_skip c _ len 0 (fun j _ h2 => hcell j (by omega))
    · simp only
      symm
      exact List.filter_eq_self.mpr (fun a ha => by
        simp only [ne_eq, decide_not, Bool.not_eq_true', decide_eq_false_iff_not]
        intro e; exact hmem (e ▸ ha))

/-- C17: for every connection list without duplicates (also one whose backing array
holds stale cells past its length) and every connection `c`, `removeCon(c)` returns
without indexing or slicing out of range; afterwards the list contains no `c`,
contains every other connection as often as before (exactly once when it was a
member) and in the same relative order, is unchanged when `c` was not a member, and
is again free of duplicates. -/
theorem removeCon_removes_exactly_the_connection {Conn : Type} [DecidableEq Conn] (c : Conn)
    (cl : Clients Conn) (hlen : cl.len ≤ cl.arr.length) (hnd : cl.toList.Nodup) :
    ∃ cl', removeCon c cl = .ok cl' ∧
      c ∉ cl'.toList ∧
      (∀ x, x ≠ c → cl'.toList.count x = cl.toList.count x) ∧
      (∀ x, x ≠ c → x ∈ cl.toList → cl'.toList.count x = 1) ∧
      cl'.toList = cl.toList.filter (fun x => decide (x ≠ c)) ∧
      List.Sublist cl'.toList cl.toList ∧
      (c ∉ cl.toList → cl'.toList = cl.toList) ∧
      cl'.toList.Nodup ∧ cl'.len ≤ cl'.arr.length := by
  obtain ⟨cl', h1, h2, h3, _⟩ := removeCon_spec c cl hlen hnd
  have hcount : ∀ x, x ≠ c → cl'.toList.count x = cl.toList.count x := by
    intro x hx
    rw [h2]
    exact List.count_filter (by simpa using hx)
  refine ⟨cl', h1, ?_, hcount, ?_, h2, ?_, ?_, ?_, h3⟩
  · rw [h2]
    intro hin
    have := (List.mem_filter.mp hin).2
    simp at this
  · intro x hx hin
    rw [hcount x hx]
    exact List.count_eq_one_of_mem hnd hin
  · rw [h2]
    exact List.filter_sublist _
  · intro hnot
    rw [h2]
    exact List.filter_eq_self.mpr (fun a ha => by
      simp only [ne_eq, decide_not, Bool.not_eq_true', decide_eq_false_iff_not]
      intro e; exact hnot (e ▸ ha))
  · rw [h2]
    exact hnd.filter _

theorem removeCon_removes_exactly_the_connection_witness :
    ∃ cl', removeCon "B" (⟨["A", "B", "C", "D", "D"], 4⟩ : Clients String) = .ok cl' ∧
      "B" ∉ cl'.toList ∧
      (∀ x, x ≠ "B" → cl'.toList.count x = (⟨["A", "B", "C", "D", "D"], 4⟩ : Clients String).toList.count x) ∧
      (∀ x, x ≠ "B" → x ∈ (⟨["A", "B", "C", "D", "D"], 4⟩ : Clients String).toList →
        cl'.toList.count x = 1) ∧
      cl'.toList = (⟨["A", "B", "C", "D", "D"], 4⟩ : Clients String).toList.filter
        (fun x => decide (x ≠ "B")) ∧
      List.Sublist cl'.toList (⟨["A", "B", "C", "D", "D"], 4⟩ : Clients String).toList ∧
      ("B" ∉ (⟨["A", "B", "C", "D", "D"], 4⟩ : Clients String).toList →
        cl'.toList = (⟨["A", "B", "C", "D", "D"], 4⟩ : Clients String).toList) ∧
      cl'.toList.Nodup ∧ cl'.len ≤ cl'.arr.length :=
  removeCon_removes_exactly_the_connection "B" ⟨["A", "B", "C", "D", "D"], 4⟩ (by decide) (by decide)

end Tg
